import Mathlib

set_option maxHeartbeats 1000000

/- Verification development for the sudoku solver in `solver/game.go`
   (repository MarcGrol/sudoku).

   Modelling conventions:
   * The grid collaborator (`Square`, `ValueSet`, files square.go / valueset.go)
     is not among the given sources; its operations are modelled from the spec
     (sections 2, 3 and 6): a 9x9 matrix of optional integers with get/set/
     clear/has, per-row/column/block used-value queries, row-major iteration
     and deep copy.  Every such definition carries a `Modelled from the spec:`
     doc comment.
   * Go machine integers that are always small and non-negative here are
     modelled as `Nat`; `minSolutionCount` (an arbitrary caller-supplied Go
     `int`) is modelled as `Int`.
   * Concurrency: each `go solve(cpy)` spawn is modelled by collecting, in a
     pure recursion, every game the search tree ever pushes onto the solution
     channel.  A `fuel` parameter bounds the guess depth; theorems quantify
     over all fuel, which covers every finite real execution.  The wall-clock
     deadline check can only remove reports, never add them, so it is modelled
     as never firing; `deadline` and `solutionChannel` are kept as abstract
     numeric tags because the code only copies them between nodes.
   * The global diagnostic flag `Verbose` is passed as an explicit `verbose`
     parameter. -/

/- The Go type `Value` (an integer) is modelled as `Nat` throughout. -/

/-- Modelled from the spec: the Grid collaborator (square.go is absent).
"A 9x9 matrix of optional integers"; a cell is empty (`none`) or holds a
value. -/
abbrev Square := Fin 9 → Fin 9 → Option Nat

/-- Row-major list of all 81 coordinates; this is both the order of the
nested `for x { for y }` loops in `step` and the order of the spec's
`iterate` primitive. -/
def allCoords : List (Fin 9 × Fin 9) :=
  (List.finRange 9).flatMap (fun x => (List.finRange 9).map (fun y => (x, y)))

/-- Modelled from the spec: `set(row,col,value)` stores the given value. -/
def Square.Set (s : Square) (x y : Fin 9) (v : Nat) : Square :=
  fun i j => if i = x ∧ j = y then some v else s i j

/-- Modelled from the spec: `clear(row,col)` empties the cell. -/
def Square.Clear (s : Square) (x y : Fin 9) : Square :=
  fun i j => if i = x ∧ j = y then none else s i j

/-- Modelled from the spec: `has(row,col)` = the cell holds a value. -/
def Square.Has (s : Square) (x y : Fin 9) : Bool :=
  (s x y).isSome

/-- Modelled from the spec: `get(row,col)`; only used on occupied cells. -/
def Square.Get (s : Square) (x y : Fin 9) : Nat :=
  (s x y).getD 0

/-- Modelled from the spec: `rowValues(row)`, the values present in a row. -/
def Square.GetRowValues (s : Square) (x : Fin 9) : List Nat :=
  (List.finRange 9).filterMap (fun y => s x y)

/-- Modelled from the spec: `columnValues(col)`. -/
def Square.GetColumnValues (s : Square) (y : Fin 9) : List Nat :=
  (List.finRange 9).filterMap (fun x => s x y)

/-- Same 3x3 block test: coordinates agree after division by 3. -/
def sameBlock (a b : Fin 9) : Bool :=
  decide (a.val / 3 = b.val / 3)

/-- The coordinate inside the block of `c` with intra-block offset `a`. -/
def blockCoord (c : Fin 9) (a : Fin 3) : Fin 9 :=
  ⟨3 * (c.val / 3) + a.val, by have h1 := c.isLt; have h2 := a.isLt; omega⟩

/-- Modelled from the spec: `blockValues(row,col)`, the values present in the
3x3 block containing the cell (enumerated row-major inside the block). -/
def Square.GetSectionValues (s : Square) (x y : Fin 9) : List Nat :=
  ((List.finRange 3).flatMap (fun a =>
    (List.finRange 3).map (fun b => (blockCoord x a, blockCoord y b)))).filterMap
    (fun p => s p.1 p.2)

/-- `mergeValues` from game.go: the union of the three used-value sets.  The
spec's `ValueSet` is modelled as a list used only through membership, so
union is concatenation. -/
def mergeValues (rowValues columnValues sectionValues : List Nat) : List Nat :=
  rowValues ++ columnValues ++ sectionValues

/-- The merged used values of the row, column and block of a cell. -/
def mergedValues (s : Square) (x y : Fin 9) : List Nat :=
  mergeValues (s.GetRowValues x) (s.GetColumnValues y) (s.GetSectionValues x y)

/-- `findCandidates`/`makeFull` from game.go: the full domain 1..9 minus the
merged used values (the spec's `ValueSet.Difference(...).ToSlice()`, returned
here in ascending order). -/
def findCandidates (s : Square) (x y : Fin 9) : List Nat :=
  let m := mergedValues s x y
  ((List.range 9).map (· + 1)).filter (fun v => !decide (v ∈ m))

/-- Modelled from the spec: `isAllowed(row,col,value)` — the placement does
not violate row/column/block uniqueness (spec sections 6 and 7); used only
during load validation. -/
def Square.IsAllowed (s : Square) (x y : Fin 9) (v : Nat) : Bool :=
  !decide (v ∈ mergedValues s x y)

/-- `countEmptyValues` from game.go: iterate over the whole grid counting
cells without a value. -/
def countEmptyValues (s : Square) : Nat :=
  allCoords.countP (fun p => !(s.Has p.1 p.2))

/-- `Step` from game.go: one provenance record. -/
structure Step where
  X : Fin 9
  Y : Fin 9
  Z : Nat
  Initial : Bool
  IsGuess : Bool
  deriving DecidableEq, Repr

/-- `Game` from game.go.  `solutionChannel` and `deadline` are abstract tags
(the code only copies them from parent to child). -/
structure Game where
  CellsToBeSolved : Nat
  GuessCount : Nat
  Steps : List Step
  square : Square
  solutionChannel : Nat
  deadline : Nat

instance : DecidableEq Game := fun a b =>
  decidable_of_iff
    (a.CellsToBeSolved = b.CellsToBeSolved ∧ a.GuessCount = b.GuessCount ∧
      a.Steps = b.Steps ∧ a.square = b.square ∧
      a.solutionChannel = b.solutionChannel ∧ a.deadline = b.deadline)
    (by cases a; cases b; simp)

/-- `newGame` from game.go: an all-empty square. -/
def newGame : Game :=
  { CellsToBeSolved := 0, GuessCount := 0, Steps := [],
    square := fun _ _ => none, solutionChannel := 0, deadline := 0 }

/-- `Game.set` from game.go: write the cell, append a provenance record, and
count a guess.  `CellsToBeSolved` is not touched. -/
def gameSet (g : Game) (x y : Fin 9) (z : Nat) (initial isGuess : Bool) : Game :=
  { g with
    square := g.square.Set x y z
    Steps := g.Steps ++ [{ X := x, Y := y, Z := z, Initial := initial, IsGuess := isGuess }]
    GuessCount := if isGuess then g.GuessCount + 1 else g.GuessCount }

/-- `Game.copy` from game.go: a value copy of every field, except that the
provenance records are rebuilt as `Step{X, Y, Z}` — the `Initial` and
`IsGuess` fields are dropped and default to `false`. -/
def Game.copy (g : Game) : Game :=
  { g with
    Steps := g.Steps.map (fun s =>
      { X := s.X, Y := s.Y, Z := s.Z, Initial := false, IsGuess := false }) }

/-- The body of `Game.step`: walk the coordinates in row-major order carrying
the number of cells solved so far; `-1` aborts the sweep at once, leaving the
grid exactly as it was at the moment the contradiction was found. -/
def stepGo : List (Fin 9 × Fin 9) → Game → Nat → Game × Int
  | [], g, solved => (g, (solved : Int))
  | p :: rest, g, solved =>
    if (g.square p.1 p.2).isSome then
      stepGo rest g solved
    else
      match findCandidates g.square p.1 p.2 with
      | [] => (g, -1)
      | [v] => stepGo rest (gameSet g p.1 p.2 v false false) (solved + 1)
      | _ => stepGo rest g solved

/-- `Game.step` from game.go: one full propagation sweep. -/
def step (g : Game) : Game × Int :=
  stepGo allCoords g 0

/-- `cell` from game.go: an empty cell together with its candidates. -/
structure cell where
  x : Fin 9
  y : Fin 9
  candidates : List Nat
  deriving DecidableEq

/-- Stable insertion of a cell into a list sorted by candidate count.  Go's
`sort.Sort(CellByNumberOfCandidates(cells))` only guarantees a sorted result
(it is not a stable sort); it is modelled here by a stable insertion sort, a
particular sorted permutation.  No settled claim depends on the order among
cells with equal candidate counts. -/
def insertCell (c : cell) : List cell → List cell
  | [] => [c]
  | d :: rest =>
    if c.candidates.length ≤ d.candidates.length then c :: d :: rest
    else d :: insertCell c rest

/-- Sort cells by ascending number of candidates (see `insertCell`). -/
def sortCells : List cell → List cell
  | [] => []
  | c :: rest => insertCell c (sortCells rest)

/-- `Game.findCellsWithLeastCandidates` from game.go: collect, in iteration
order, every empty cell with more than one candidate, then sort by candidate
count. -/
def findCellsWithLeastCandidates (g : Game) : List cell :=
  sortCells (allCoords.filterMap (fun p =>
    if (g.square p.1 p.2).isSome then none
    else
      let cs := findCandidates g.square p.1 p.2
      if cs.length > 1 then some ⟨p.1, p.2, cs⟩ else none))

/-- The children spawned by `guessAndContinue` from game.go: for the first
cell of the sorted list, one copy per candidate value, with that value placed
as a guess (`initial=false`, `isGuess=true`).  Each child is then run by
`go solve(cpy)`. -/
def spawnChildren (g : Game) : List Game :=
  match findCellsWithLeastCandidates g with
  | [] => []
  | best :: _ =>
    best.candidates.map (fun cand => gameSet g.copy best.x best.y cand false true)

/-- The body of `solve` from game.go: the `maxSteps = 81` sweep loop.
`branch` is the continuation used for each spawned child (`go solve(cpy)`);
`i` is the number of loop iterations left.  The deadline check is modelled as
never firing (it can only remove reports).  The returned list collects every
game pushed onto the solution channel anywhere below this node. -/
def solveInner (branch : Game → List Game) : Nat → Game → List Game
  | 0, _ => []
  | i + 1, g =>
    let r := step g
    if r.2 < 0 then []
    else if r.2 = 0 then (spawnChildren r.1).flatMap branch
    else if countEmptyValues r.1.square = 0 then [r.1]
    else solveInner branch i r.1

/-- `solve` from game.go, with an explicit bound `fuel` on the nesting depth
of guesses; every real (finite) execution is covered by a large enough fuel. -/
def solveGo : Nat → Game → List Game
  | 0, _ => []
  | fuel + 1, g => solveInner (solveGo fuel) 81 g

/-- `guessAndContinue` from game.go: spawn one solver per child. -/
def guessAndContinue (fuel : Nat) (g : Game) : List Game :=
  (spawnChildren g).flatMap (solveGo fuel)

/-- `solutionExists` from game.go: `reflect.DeepEqual` on the squares of the
already accepted solutions. -/
def solutionExists (solutions : List Game) (newSolution : Game) : Bool :=
  solutions.any (fun s => decide (s.square = newSolution.square))

/-- The `select` loop of `waitforCompletion` from game.go, fed with the (finite)
list of games that arrive on the solution channel before the timer fires.
A duplicate (by square content) is discarded; otherwise the arrival is
appended and the loop exits once `minSolutionCount` accepted solutions are
reached. -/
def waitLoop : List Game → List Game → Int → List Game
  | [], solutions, _ => solutions
  | a :: rest, solutions, minSolutionCount =>
    if solutionExists solutions a then waitLoop rest solutions minSolutionCount
    else
      let solutions' := solutions ++ [a]
      if minSolutionCount ≤ (solutions'.length : Int) then solutions'
      else waitLoop rest solutions' minSolutionCount

/-- `waitforCompletion` from game.go: run the collection loop, then return an
error only when the solution list is empty AND the `Verbose` flag is set. -/
def waitforCompletion (arrivals : List Game) (minSolutionCount : Int)
    (verbose : Bool) : List Game × Option String :=
  let solutions := waitLoop arrivals [] minSolutionCount
  if solutions.length = 0 ∧ verbose then (solutions, some "No solutions found")
  else (solutions, none)

/-- `Solve` from game.go: install the channel and deadline on the root game,
run the search, and collect.  The absolute deadline instant is abstracted by
the timeout value; the model enumerates all reports (see header). -/
def Solve (g : Game) (timeout : Nat) (minSolutionCount : Int) (fuel : Nat)
    (verbose : Bool) : List Game × Option String :=
  let g' := { g with solutionChannel := 1, deadline := timeout }
  waitforCompletion (solveGo fuel g') minSolutionCount verbose

/- ----------------------------------------------------------------------
   The Load pipeline (text parsing). Strings are handled as ASCII character
   lists; `goSplit` models Go's `strings.Split` with a one-character
   separator.
   ---------------------------------------------------------------------- -/

/-- Go `strings.Split(s, sep)` for a single-character separator. -/
def goSplit (sep : Char) : List Char → List (List Char)
  | [] => [[]]
  | c :: rest =>
    if c = sep then [] :: goSplit sep rest
    else
      match goSplit sep rest with
      | [] => [[c]]
      | t :: ts => (c :: t) :: ts

/-- Decimal value of a digit string. -/
def digitsToNat (l : List Char) : Nat :=
  l.foldl (fun acc c => acc * 10 + (c.toNat - '0'.toNat)) 0

/-- Go `strconv.Atoi`: optional sign followed by at least one digit
(64-bit overflow, irrelevant for these inputs, is not modelled). -/
def atoi : List Char → Option Int
  | [] => none
  | '+' :: rest =>
    if rest ≠ [] ∧ rest.all Char.isDigit then some (digitsToNat rest) else none
  | '-' :: rest =>
    if rest ≠ [] ∧ rest.all Char.isDigit then some (-(digitsToNat rest : Int)) else none
  | l =>
    if l.all Char.isDigit then some (digitsToNat l) else none

/-- The errors `Load` from game.go can report (the formatted message text is
abstracted into constructors; positions are 1-based as in the code). -/
inductive LoadError where
  | invalidColumns (row needed actual : Nat)
  | invalidValueStr (val : List Char) (row col : Nat)
  | invalidValueNum (num : Int) (row col : Nat)
  | duplicateValue (num : Int) (row col : Nat)
  | notEnoughRows (needed actual : Nat)
  deriving DecidableEq

instance {ε α : Type} [DecidableEq ε] [DecidableEq α] : DecidableEq (Except ε α) :=
  fun a b =>
    match a, b with
    | .ok x, .ok y =>
      decidable_of_iff (x = y) ⟨fun h => h ▸ rfl, fun h => by cases h; rfl⟩
    | .error e, .error f =>
      decidable_of_iff (e = f) ⟨fun h => h ▸ rfl, fun h => by cases h; rfl⟩
    | .ok _, .error _ => isFalse (fun h => Except.noConfusion h)
    | .error _, .ok _ => isFalse (fun h => Except.noConfusion h)

/-- One cell token of `Load`: `_` clears, otherwise parse, range-check
(`num < 0 || num > SQUARE_SIZE` — note that this admits 0), check
`IsAllowed`, and place as an initial non-guess step. -/
def loadToken (g : Game) (x y : Fin 9) (val : List Char) : Except LoadError Game :=
  if val = ['_'] then .ok { g with square := g.square.Clear x y }
  else
    match atoi val with
    | none => .error (.invalidValueStr val (x.val + 1) (y.val + 1))
    | some num =>
      if num < 0 ∨ 9 < num then .error (.invalidValueNum num (x.val + 1) (y.val + 1))
      else if !g.square.IsAllowed x y num.toNat then
        .error (.duplicateValue num (x.val + 1) (y.val + 1))
      else .ok (gameSet g x y num.toNat true false)

/-- The inner `for y, val := range splitted` loop of `Load`. -/
def loadRow (g : Game) (x : Fin 9) : List (Fin 9 × List Char) → Except LoadError Game
  | [] => .ok g
  | (y, val) :: rest => (loadToken g x y val).bind (fun g' => loadRow g' x rest)

/-- The outer `for x, line := range strings.Split(lines, "\n")` loop of
`Load`: break past row 9 or at an empty line, otherwise require exactly 9
space-separated tokens and load them; returns the game together with
`linesRead`. -/
def loadRows (g : Game) (x linesRead : Nat) :
    List (List Char) → Except LoadError (Game × Nat)
  | [] => .ok (g, linesRead)
  | line :: rest =>
    if h : 9 ≤ x then .ok (g, linesRead)
    else if line = [] then .ok (g, linesRead)
    else
      let splitted := goSplit ' ' line
      if splitted.length ≠ 9 then
        .error (.invalidColumns (x + 1) 9 splitted.length)
      else
        (loadRow g ⟨x, by omega⟩ ((List.finRange 9).zip splitted)).bind
          (fun g' => loadRows g' (x + 1) (linesRead + 1) rest)

/-- `Load` from game.go: split on newlines, run the row loop, require 9 rows
read, then store the number of empty cells in `CellsToBeSolved`. -/
def Load (lines : String) : Except LoadError Game :=
  (loadRows newGame 0 0 (goSplit '\n' lines.data)).bind (fun r =>
    if r.2 ≠ 9 then .error (.notEnoughRows 9 r.2)
    else .ok { r.1 with CellsToBeSolved := countEmptyValues r.1.square })

/- ----------------------------------------------------------------------
   Correctness predicates.
   ---------------------------------------------------------------------- -/

/-- Two coordinates share a row, a column, or a 3x3 block. -/
def sameUnit (a b : Fin 9 × Fin 9) : Prop :=
  a.1 = b.1 ∨ a.2 = b.2 ∨ (a.1.val / 3 = b.1.val / 3 ∧ a.2.val / 3 = b.2.val / 3)

instance (a b : Fin 9 × Fin 9) : Decidable (sameUnit a b) := by
  unfold sameUnit; infer_instance

/-- No two distinct cells of a common unit hold the same value. -/
def consistent (s : Square) : Prop :=
  ∀ a b : Fin 9 × Fin 9, a ≠ b → sameUnit a b →
    s a.1 a.2 ≠ none → s a.1 a.2 ≠ s b.1 b.2

instance (s : Square) : Decidable (consistent s) := by
  unfold consistent; infer_instance

/-- Every stored value lies in 1..9 (stated via `getD 1` to stay decidable). -/
def inRange (s : Square) : Prop :=
  ∀ x y : Fin 9, 1 ≤ (s x y).getD 1 ∧ (s x y).getD 1 ≤ 9

instance (s : Square) : Decidable (inRange s) := by
  unfold inRange; infer_instance

/-- Every stored value lies below 10 (what `Load`'s range check enforces). -/
def valuesLe9 (s : Square) : Prop :=
  ∀ x y : Fin 9, (s x y).getD 0 ≤ 9

instance (s : Square) : Decidable (valuesLe9 s) := by
  unfold valuesLe9; infer_instance

/-- Every cell is filled. -/
def complete (s : Square) : Prop :=
  countEmptyValues s = 0

/-- Number of cells of row `i` holding value `v`. -/
def rowCount (s : Square) (i : Fin 9) (v : Nat) : Nat :=
  (List.finRange 9).countP (fun j => decide (s i j = some v))

/-- Number of cells of column `j` holding value `v`. -/
def colCount (s : Square) (j : Fin 9) (v : Nat) : Nat :=
  (List.finRange 9).countP (fun i => decide (s i j = some v))

/-- The `k`-th cell of the 3x3 block with block coordinates `(bi, bj)`. -/
def blockCell (bi bj : Fin 3) (k : Fin 9) : Fin 9 × Fin 9 :=
  (⟨3 * bi.val + k.val / 3, by have h1 := bi.isLt; have h2 := k.isLt; omega⟩,
   ⟨3 * bj.val + k.val % 3, by have h1 := bj.isLt; have h2 := k.isLt; omega⟩)

/-- Number of cells of block `(bi, bj)` holding value `v`. -/
def blockCount (s : Square) (bi bj : Fin 3) (v : Nat) : Nat :=
  (List.finRange 9).countP
    (fun k => decide (s (blockCell bi bj k).1 (blockCell bi bj k).2 = some v))

/-- Every row, column and 3x3 block contains each value 1..9 exactly once. -/
def unitsValid (s : Square) : Prop :=
  ∀ v : Fin 9,
    (∀ i, rowCount s i (v.val + 1) = 1) ∧
    (∀ j, colCount s j (v.val + 1) = 1) ∧
    (∀ bi bj : Fin 3, blockCount s bi bj (v.val + 1) = 1)

instance (s : Square) : Decidable (unitsValid s) := by
  unfold unitsValid; infer_instance

/- ----------------------------------------------------------------------
   Claim-side reference formulation of the propagation sweep (for C4):
   the candidate set is written as the claim words it, "the set {1..9}
   minus the union of the values used in the cell's row, column, and
   3x3 block", and the sweep control flow follows the claim sentence.
   ---------------------------------------------------------------------- -/

/-- Claim wording: the values used in row `x`. -/
def usedRowSet (s : Square) (x : Fin 9) : Finset Nat :=
  Finset.univ.biUnion (fun y : Fin 9 => (s x y).toFinset)

/-- Claim wording: the values used in column `y`. -/
def usedColSet (s : Square) (y : Fin 9) : Finset Nat :=
  Finset.univ.biUnion (fun x : Fin 9 => (s x y).toFinset)

/-- Claim wording: the values used in the 3x3 block of `(x, y)`. -/
def usedBlockSet (s : Square) (x y : Fin 9) : Finset Nat :=
  Finset.univ.biUnion (fun p : Fin 9 × Fin 9 =>
    if p.1.val / 3 = x.val / 3 ∧ p.2.val / 3 = y.val / 3 then (s p.1 p.2).toFinset else ∅)

/-- Claim wording: the candidate set of an empty cell, `{1..9}` minus the
union of the used values of its row, column and block. -/
def candSet (s : Square) (x y : Fin 9) : Finset Nat :=
  Finset.Icc 1 9 \ (usedRowSet s x ∪ usedColSet s y ∪ usedBlockSet s x y)

/-- The propagation sweep exactly as C4 words it: scan the 81 coordinates in
row-major order; an empty candidate set aborts with the sentinel at once; a
singleton places its unique value immediately and records a
non-initial/non-guess step; larger sets leave the cell untouched. -/
def stepClaimGo : List (Fin 9 × Fin 9) → Game → Nat → Game × Int
  | [], g, fixed => (g, (fixed : Int))
  | p :: rest, g, fixed =>
    if (g.square p.1 p.2).isSome then stepClaimGo rest g fixed
    else
      let c := candSet g.square p.1 p.2
      if c.card = 0 then (g, -1)
      else if c.card = 1 then
        stepClaimGo rest
          (gameSet g p.1 p.2 ((c.sort (· ≤ ·)).headD 0) false false) (fixed + 1)
      else stepClaimGo rest g fixed

/-- The whole sweep of C4's wording. -/
def stepClaim (g : Game) : Game × Int :=
  stepClaimGo allCoords g 0

/- ----------------------------------------------------------------------
   Concrete inputs used by witnesses and counterexamples.
   ---------------------------------------------------------------------- -/

/-- A completed valid grid (row `r` holds the cyclic shift of 1..9) with the
last cell left empty; its unique candidate there is 8. -/
def clean80Str : String :=
  "1 2 3 4 5 6 7 8 9\n" ++
  "4 5 6 7 8 9 1 2 3\n" ++
  "7 8 9 1 2 3 4 5 6\n" ++
  "2 3 4 5 6 7 8 9 1\n" ++
  "5 6 7 8 9 1 2 3 4\n" ++
  "8 9 1 2 3 4 5 6 7\n" ++
  "3 4 5 6 7 8 9 1 2\n" ++
  "6 7 8 9 1 2 3 4 5\n" ++
  "9 1 2 3 4 5 6 7 _"

/-- The fallback game used by `Except.toOption.getD` below. -/
def dfltGame : Game := newGame

/-- The game loaded from `clean80Str`. -/
def clean80Game : Game := (Load clean80Str).toOption.getD dfltGame

/-- `clean80Str` with the top-left clue replaced by the token `0`, which the
range check of `Load` (`num < 0 || num > 9`) does not reject. -/
def zeroStr : String :=
  "0 2 3 4 5 6 7 8 9\n" ++
  "4 5 6 7 8 9 1 2 3\n" ++
  "7 8 9 1 2 3 4 5 6\n" ++
  "2 3 4 5 6 7 8 9 1\n" ++
  "5 6 7 8 9 1 2 3 4\n" ++
  "8 9 1 2 3 4 5 6 7\n" ++
  "3 4 5 6 7 8 9 1 2\n" ++
  "6 7 8 9 1 2 3 4 5\n" ++
  "9 1 2 3 4 5 6 7 _"

/-- The game loaded from `zeroStr`. -/
def zeroGame : Game := (Load zeroStr).toOption.getD dfltGame

/-- The first grid the search tree of `zeroGame` reports. -/
def zeroSolution : Game := (solveGo 1 zeroGame).headD dfltGame

/-- A puzzle with a single clue: every empty cell has at least 8 candidates,
so the very first sweep fixes nothing and the solver branches at once. -/
def oneClueStr : String :=
  "5 _ _ _ _ _ _ _ _\n" ++
  "_ _ _ _ _ _ _ _ _\n" ++
  "_ _ _ _ _ _ _ _ _\n" ++
  "_ _ _ _ _ _ _ _ _\n" ++
  "_ _ _ _ _ _ _ _ _\n" ++
  "_ _ _ _ _ _ _ _ _\n" ++
  "_ _ _ _ _ _ _ _ _\n" ++
  "_ _ _ _ _ _ _ _ _\n" ++
  "_ _ _ _ _ _ _ _ _"

/-- The game loaded from `oneClueStr` (a branching point of the search). -/
def oneClueGame : Game := (Load oneClueStr).toOption.getD dfltGame

/-- The first child spawned at the `oneClueGame` branching point. -/
def oneClueChild : Game := (spawnChildren oneClueGame).headD dfltGame

/-- `clean80Str` followed by a tenth line of garbage: the row loop breaks
after the ninth line, so the garbage is never looked at. -/
def tenLinesStr : String := clean80Str ++ "\n###garbage###"

/-- Only three rows: the scan ends with `linesRead = 3`. -/
def threeRowsStr : String := "1 2 3 4 5 6 7 8 9\n4 5 6 7 8 9 1 2 3\n7 8 9 1 2 3 4 5 6"

/-- An input whose very first token parses to 10, which is out of range. -/
def tenStr : String := "10 2 3 4 5 6 7 8 9\n"

/-- Default provenance record used with `headD`. -/
def dStep : Step := { X := 0, Y := 0, Z := 0, Initial := false, IsGuess := false }

/-- The garbage tenth line of `tenLinesStr`, as split into lines. -/
def junkLine : List Char := "###garbage###".data

/-- The result of the row scan of `clean80Str`. -/
def clean80Scan : Game × Nat :=
  (loadRows newGame 0 0 (goSplit '\n' clean80Str.data)).toOption.getD (dfltGame, 0)

/-- The result of the row scan of `threeRowsStr`. -/
def threeScan : Game × Nat :=
  (loadRows newGame 0 0 (goSplit '\n' threeRowsStr.data)).toOption.getD (dfltGame, 0)




/-- Relation between a game and any game derived from it by solver
placements: occupied cells keep their values, consistency and value range
are preserved, and the bookkeeping fields the solver never touches
(`CellsToBeSolved`, `solutionChannel`, `deadline`) are unchanged. -/
def Preserves (g g' : Game) : Prop :=
  (∀ x y : Fin 9, ∀ v, g.square x y = some v → g'.square x y = some v) ∧
  (consistent g.square → consistent g'.square) ∧
  (inRange g.square → inRange g'.square) ∧
  g'.CellsToBeSolved = g.CellsToBeSolved ∧
  g'.solutionChannel = g.solutionChannel ∧
  g'.deadline = g.deadline

/- ----------------------------------------------------------------------
   Basic lemmas about the grid model.
   ---------------------------------------------------------------------- -/

theorem mem_allCoords : ∀ p : Fin 9 × Fin 9, p ∈ allCoords := by decide

theorem Set_apply (s : Square) (x y i j : Fin 9) (v : Nat) :
    (s.Set x y v) i j = if i = x ∧ j = y then some v else s i j := rfl

theorem Set_same (s : Square) (x y : Fin 9) (v : Nat) :
    (s.Set x y v) x y = some v := by
  simp [Square.Set]

theorem Set_other (s : Square) (x y i j : Fin 9) (v : Nat)
    (h : ¬(i = x ∧ j = y)) : (s.Set x y v) i j = s i j := by
  simp only [Set_apply, if_neg h]

theorem mem_GetRowValues (s : Square) (x : Fin 9) (w : Nat) :
    w ∈ s.GetRowValues x ↔ ∃ y, s x y = some w := by
  simp [Square.GetRowValues, List.mem_filterMap]

theorem mem_GetColumnValues (s : Square) (y : Fin 9) (w : Nat) :
    w ∈ s.GetColumnValues y ↔ ∃ x, s x y = some w := by
  simp [Square.GetColumnValues, List.mem_filterMap]

theorem blockCoord_div (c : Fin 9) (a : Fin 3) :
    (blockCoord c a).val / 3 = c.val / 3 := by
  have h2 := a.isLt
  simp only [blockCoord]
  omega

theorem blockCoord_surj (c d : Fin 9) (h : d.val / 3 = c.val / 3) :
    ∃ a : Fin 3, blockCoord c a = d := by
  refine ⟨⟨d.val % 3, by omega⟩, ?_⟩
  apply Fin.ext
  simp only [blockCoord]
  omega

theorem mem_GetSectionValues (s : Square) (x y : Fin 9) (w : Nat) :
    w ∈ s.GetSectionValues x y ↔
      ∃ a b : Fin 9, a.val / 3 = x.val / 3 ∧ b.val / 3 = y.val / 3 ∧ s a b = some w := by
  unfold Square.GetSectionValues
  constructor
  · intro hw
    rw [List.mem_filterMap] at hw
    obtain ⟨p, hpmem, hp⟩ := hw
    rw [List.mem_flatMap] at hpmem
    obtain ⟨a, _, hpa⟩ := hpmem
    rw [List.mem_map] at hpa
    obtain ⟨b, _, rfl⟩ := hpa
    exact ⟨blockCoord x a, blockCoord y b, blockCoord_div x a, blockCoord_div y b, hp⟩
  · rintro ⟨a, b, h1, h2, hab⟩
    obtain ⟨i, hi⟩ := blockCoord_surj x a h1
    obtain ⟨j, hj⟩ := blockCoord_surj y b h2
    rw [List.mem_filterMap]
    refine ⟨(a, b), ?_, hab⟩
    rw [List.mem_flatMap]
    refine ⟨i, List.mem_finRange i, ?_⟩
    rw [List.mem_map]
    exact ⟨j, List.mem_finRange j, by rw [hi, hj]⟩

theorem sameUnit_symm {a b : Fin 9 × Fin 9} (h : sameUnit a b) : sameUnit b a := by
  rcases h with h | h | ⟨h1, h2⟩
  · exact Or.inl h.symm
  · exact Or.inr (Or.inl h.symm)
  · exact Or.inr (Or.inr ⟨h1.symm, h2.symm⟩)

theorem mem_mergedValues (s : Square) (x y : Fin 9) (w : Nat) :
    w ∈ mergedValues s x y ↔
      ∃ p : Fin 9 × Fin 9, sameUnit (x, y) p ∧ s p.1 p.2 = some w := by
  unfold mergedValues mergeValues
  simp only [List.mem_append, mem_GetRowValues, mem_GetColumnValues, mem_GetSectionValues]
  constructor
  · rintro ((⟨b, hb⟩ | ⟨a, ha⟩) | ⟨a, b, h1, h2, hab⟩)
    · exact ⟨(x, b), Or.inl rfl, hb⟩
    · exact ⟨(a, y), Or.inr (Or.inl rfl), ha⟩
    · exact ⟨(a, b), Or.inr (Or.inr ⟨h1.symm, h2.symm⟩), hab⟩
  · rintro ⟨⟨a, b⟩, hunit, h⟩
    rcases hunit with h1 | h1 | ⟨h1, h2⟩
    · have hx : x = a := h1
      left; left; exact ⟨b, by rw [hx]; exact h⟩
    · have hy : y = b := h1
      left; right; exact ⟨a, by rw [hy]; exact h⟩
    · right; exact ⟨a, b, h1.symm, h2.symm, h⟩

theorem mem_findCandidates (s : Square) (x y : Fin 9) (v : Nat) :
    v ∈ findCandidates s x y ↔ 1 ≤ v ∧ v ≤ 9 ∧ v ∉ mergedValues s x y := by
  show v ∈ ((List.range 9).map (· + 1)).filter
      (fun v => !decide (v ∈ mergedValues s x y)) ↔ _
  simp only [List.mem_filter, List.mem_map, List.mem_range, Bool.not_eq_true',
    decide_eq_false_iff_not]
  constructor
  · rintro ⟨⟨w, hw, rfl⟩, hm⟩
    exact ⟨by omega, by omega, hm⟩
  · rintro ⟨h1, h9, hm⟩
    exact ⟨⟨v - 1, by omega, by omega⟩, hm⟩

theorem findCandidates_nodup (s : Square) (x y : Fin 9) :
    (findCandidates s x y).Nodup := by
  show (((List.range 9).map (· + 1)).filter
      (fun v => !decide (v ∈ mergedValues s x y))).Nodup
  exact (List.Nodup.map (add_left_injective 1) (List.nodup_range 9)).filter _

theorem consistent_Set (s : Square) (x y : Fin 9) (v : Nat)
    (hc : consistent s) (hv : v ∉ mergedValues s x y) :
    consistent (s.Set x y v) := by
  intro a b hab hunit hne
  by_cases ha : a = (x, y) <;> by_cases hb : b = (x, y)
  · exact absurd (ha.trans hb.symm) hab
  · subst ha
    have hbne : ¬(b.1 = x ∧ b.2 = y) := by
      intro hh
      exact hb (Prod.ext hh.1 hh.2)
    rw [Set_apply, if_pos ⟨rfl, rfl⟩, Set_other _ _ _ _ _ _ hbne]
    intro heq
    exact hv ((mem_mergedValues s x y v).mpr ⟨b, hunit, heq.symm⟩)
  · subst hb
    have hane : ¬(a.1 = x ∧ a.2 = y) := by
      intro hh
      exact ha (Prod.ext hh.1 hh.2)
    rw [Set_other _ _ _ _ _ _ hane] at hne ⊢
    rw [Set_apply, if_pos ⟨rfl, rfl⟩]
    intro heq
    exact hv ((mem_mergedValues s x y v).mpr ⟨a, sameUnit_symm hunit, heq⟩)
  · have hane : ¬(a.1 = x ∧ a.2 = y) := by
      intro hh
      exact ha (Prod.ext hh.1 hh.2)
    have hbne : ¬(b.1 = x ∧ b.2 = y) := by
      intro hh
      exact hb (Prod.ext hh.1 hh.2)
    rw [Set_other _ _ _ _ _ _ hane] at hne ⊢
    rw [Set_other _ _ _ _ _ _ hbne]
    exact hc a b hab hunit hne

theorem inRange_iff (s : Square) :
    inRange s ↔ ∀ x y : Fin 9, ∀ v, s x y = some v → 1 ≤ v ∧ v ≤ 9 := by
  unfold inRange
  constructor
  · intro h x y v hv
    have := h x y
    rw [hv] at this
    simpa using this
  · intro h x y
    cases hxy : s x y with
    | none => simp
    | some v => simpa using h x y v hxy

theorem inRange_Set (s : Square) (x y : Fin 9) (v : Nat)
    (h : inRange s) (h1 : 1 ≤ v) (h9 : v ≤ 9) : inRange (s.Set x y v) := by
  rw [inRange_iff] at h ⊢
  intro i j w hw
  rw [Set_apply] at hw
  by_cases hij : i = x ∧ j = y
  · rw [if_pos hij] at hw
    cases hw
    exact ⟨h1, h9⟩
  · rw [if_neg hij] at hw
    exact h i j w hw

theorem Set_preserves (s : Square) (x y i j : Fin 9) (v w : Nat)
    (he : s x y = none) (hw : s i j = some w) : (s.Set x y v) i j = some w := by
  rw [Set_apply]
  by_cases hij : i = x ∧ j = y
  · rw [hij.1, hij.2] at hw
    rw [he] at hw
    cases hw
  · rw [if_neg hij]
    exact hw

/- ----------------------------------------------------------------------
   Preservation through placements, sweeps, and the whole search tree.
   ---------------------------------------------------------------------- -/

theorem Preserves_refl (g : Game) : Preserves g g :=
  ⟨fun _ _ _ h => h, id, id, rfl, rfl, rfl⟩

theorem Preserves_trans {a b c : Game} (h1 : Preserves a b) (h2 : Preserves b c) :
    Preserves a c := by
  obtain ⟨m1, c1, r1, s1, ch1, d1⟩ := h1
  obtain ⟨m2, c2, r2, s2, ch2, d2⟩ := h2
  exact ⟨fun x y v hv => m2 x y v (m1 x y v hv), fun hc => c2 (c1 hc),
    fun hr => r2 (r1 hr), s2.trans s1, ch2.trans ch1, d2.trans d1⟩

theorem Preserves_gameSet (g : Game) (x y : Fin 9) (v : Nat) (initial isGuess : Bool)
    (he : g.square x y = none) (hv : v ∈ findCandidates g.square x y) :
    Preserves g (gameSet g x y v initial isGuess) := by
  obtain ⟨h1, h9, hm⟩ := (mem_findCandidates _ x y v).mp hv
  refine ⟨?_, ?_, ?_, rfl, rfl, rfl⟩
  · intro i j w hw
    exact Set_preserves g.square x y i j v w he hw
  · intro hc
    exact consistent_Set g.square x y v hc hm
  · intro hr
    exact inRange_Set g.square x y v hr h1 h9

theorem Preserves_copy (g : Game) : Preserves g g.copy :=
  ⟨fun _ _ _ h => h, id, id, rfl, rfl, rfl⟩

theorem stepGo_preserves (L : List (Fin 9 × Fin 9)) :
    ∀ (g : Game) (n : Nat), Preserves g (stepGo L g n).1 := by
  induction L with
  | nil => intro g n; exact Preserves_refl g
  | cons p rest ih =>
    intro g n
    rw [stepGo]
    by_cases hoc : (g.square p.1 p.2).isSome
    · rw [if_pos hoc]
      exact ih g n
    · rw [if_neg hoc]
      cases hc : findCandidates g.square p.1 p.2 with
      | nil => exact Preserves_refl g
      | cons v tail =>
        cases tail with
        | nil =>
          have he : g.square p.1 p.2 = none := Option.not_isSome_iff_eq_none.mp hoc
          have hv : v ∈ findCandidates g.square p.1 p.2 := by
            rw [hc]
            exact List.mem_cons_self v []
          exact Preserves_trans (Preserves_gameSet g p.1 p.2 v false false he hv)
            (ih _ _)
        | cons w tail2 => exact ih g n

theorem step_preserves (g : Game) : Preserves g (step g).1 :=
  stepGo_preserves allCoords g 0

theorem mem_insertCell (c a : cell) (l : List cell) :
    a ∈ insertCell c l ↔ a = c ∨ a ∈ l := by
  induction l with
  | nil => simp [insertCell]
  | cons d rest ih =>
    rw [insertCell]
    split
    · simp [List.mem_cons]
    · rw [List.mem_cons, ih, List.mem_cons]
      tauto

theorem mem_sortCells (a : cell) (l : List cell) : a ∈ sortCells l ↔ a ∈ l := by
  induction l with
  | nil => simp [sortCells]
  | cons c rest ih => rw [sortCells, mem_insertCell, ih, List.mem_cons]

theorem spawnChildren_spec (g c : Game) (hc : c ∈ spawnChildren g) :
    ∃ x y : Fin 9, ∃ v, g.square x y = none ∧ v ∈ findCandidates g.square x y ∧
      c = gameSet g.copy x y v false true := by
  unfold spawnChildren at hc
  cases hbest : findCellsWithLeastCandidates g with
  | nil => rw [hbest] at hc; simp at hc
  | cons best others =>
    rw [hbest] at hc
    rw [List.mem_map] at hc
    obtain ⟨v, hv, rfl⟩ := hc
    have hmem : best ∈ findCellsWithLeastCandidates g := by
      rw [hbest]
      exact List.mem_cons_self best others
    unfold findCellsWithLeastCandidates at hmem
    rw [mem_sortCells, List.mem_filterMap] at hmem
    obtain ⟨p, _, hp⟩ := hmem
    by_cases hs : (g.square p.1 p.2).isSome
    · rw [if_pos hs] at hp
      cases hp
    · rw [if_neg hs] at hp
      dsimp only at hp
      by_cases hl : (findCandidates g.square p.1 p.2).length > 1
      · rw [if_pos hl] at hp
        obtain rfl := Option.some.inj hp
        exact ⟨p.1, p.2, v, Option.not_isSome_iff_eq_none.mp hs, hv, rfl⟩
      · rw [if_neg hl] at hp
        cases hp

theorem Preserves_spawnChild (g c : Game) (hc : c ∈ spawnChildren g) :
    Preserves g c := by
  obtain ⟨x, y, v, he, hv, rfl⟩ := spawnChildren_spec g c hc
  exact Preserves_trans (Preserves_copy g) (Preserves_gameSet g.copy x y v false true he hv)

theorem solveInner_inv (branch : Game → List Game)
    (hbranch : ∀ c sol, sol ∈ branch c → Preserves c sol ∧ complete sol.square) :
    ∀ (i : Nat) (g sol : Game), sol ∈ solveInner branch i g →
      Preserves g sol ∧ complete sol.square := by
  intro i
  induction i with
  | zero =>
    intro g sol h
    simp [solveInner] at h
  | succ i ih =>
    intro g sol h
    simp only [solveInner] at h
    split_ifs at h with h1 h2 h3
    · simp at h
    · rw [List.mem_flatMap] at h
      obtain ⟨c, hcmem, hsol⟩ := h
      obtain ⟨hp, hcomp⟩ := hbranch c sol hsol
      exact ⟨Preserves_trans
        (Preserves_trans (step_preserves g) (Preserves_spawnChild _ c hcmem)) hp, hcomp⟩
    · rw [List.mem_singleton] at h
      subst h
      exact ⟨step_preserves g, h3⟩
    · exact ((ih (step g).1 sol h).imp
        (fun hp => Preserves_trans (step_preserves g) hp)) id

theorem solveGo_inv :
    ∀ (fuel : Nat) (g sol : Game), sol ∈ solveGo fuel g →
      Preserves g sol ∧ complete sol.square := by
  intro fuel
  induction fuel with
  | zero =>
    intro g sol h
    simp [solveGo] at h
  | succ fuel ih =>
    intro g sol h
    exact solveInner_inv (solveGo fuel) ih 81 g sol h

/- ----------------------------------------------------------------------
   A complete, consistent grid with values in 1..9 has every unit valid.
   ---------------------------------------------------------------------- -/

theorem countP_eq_one_of_unique {α : Type} (l : List α) (p : α → Bool) (a : α)
    (ha : a ∈ l) (hnd : l.Nodup) (hpa : p a = true)
    (huniq : ∀ b ∈ l, p b = true → b = a) : l.countP p = 1 := by
  induction l with
  | nil => cases ha
  | cons b t ih =>
    rw [List.countP_cons]
    rcases List.mem_cons.mp ha with rfl | hat
    · have ht0 : t.countP p = 0 := by
        rw [List.countP_eq_zero]
        intro c hc hpc
        have hca := huniq c (List.mem_cons_of_mem _ hc) hpc
        subst hca
        exact (List.nodup_cons.mp hnd).1 hc
      rw [ht0, if_pos hpa]
    · have hpb : p b = false := by
        rcases hb : p b with _ | _
        · rfl
        · have hba := huniq b (List.mem_cons_self b t) hb
          subst hba
          exact absurd hat (List.nodup_cons.mp hnd).1
      rw [hpb, if_neg (by simp)]
      rw [Nat.add_zero]
      exact ih hat (List.nodup_cons.mp hnd).2
        (fun c hc hpc => huniq c (List.mem_cons_of_mem _ hc) hpc)

theorem countP_finRange_eq_one (f : Fin 9 → Nat) (hinj : Function.Injective f)
    (hrange : ∀ j, 1 ≤ f j ∧ f j ≤ 9) (v : Nat) (hv1 : 1 ≤ v) (hv9 : v ≤ 9) :
    (List.finRange 9).countP (fun j => decide (f j = v)) = 1 := by
  have hsub : Finset.image f Finset.univ ⊆ Finset.Icc 1 9 := by
    intro w hw
    rw [Finset.mem_image] at hw
    obtain ⟨j, _, rfl⟩ := hw
    rw [Finset.mem_Icc]
    exact hrange j
  have hcard : (Finset.image f Finset.univ).card = 9 := by
    rw [Finset.card_image_of_injective _ hinj, Finset.card_univ, Fintype.card_fin]
  have hicc : (Finset.Icc 1 9 : Finset Nat).card = 9 := by
    rw [Nat.card_Icc]
  have heq : Finset.image f Finset.univ = Finset.Icc 1 9 :=
    Finset.eq_of_subset_of_card_le hsub (by rw [hcard, hicc])
  have hvmem : v ∈ Finset.image f Finset.univ := by
    rw [heq, Finset.mem_Icc]
    exact ⟨hv1, hv9⟩
  rw [Finset.mem_image] at hvmem
  obtain ⟨j, _, hj⟩ := hvmem
  apply countP_eq_one_of_unique _ _ j (List.mem_finRange j) (List.nodup_finRange 9)
  · exact decide_eq_true hj
  · intro b _ hpb
    exact hinj ((of_decide_eq_true hpb).trans hj.symm)

theorem complete_isSome (s : Square) (hc : complete s) (x y : Fin 9) :
    (s x y).isSome := by
  unfold complete countEmptyValues at hc
  rw [List.countP_eq_zero] at hc
  have hxy := hc (x, y) (mem_allCoords (x, y))
  exact Option.ne_none_iff_isSome.mp (by simpa [Square.Has] using hxy)

theorem get_eq (s : Square) (x y : Fin 9) (h : (s x y).isSome) :
    s x y = some (s.Get x y) := by
  cases hxy : s x y with
  | none => rw [hxy] at h; cases h
  | some v => simp [Square.Get, hxy]

theorem blockCell_injective : ∀ bi bj : Fin 3, Function.Injective (blockCell bi bj) := by
  decide

theorem blockCell_sameUnit :
    ∀ (bi bj : Fin 3) (k k' : Fin 9),
      (blockCell bi bj k).1.val / 3 = (blockCell bi bj k').1.val / 3 ∧
      (blockCell bi bj k).2.val / 3 = (blockCell bi bj k').2.val / 3 := by
  decide

theorem unitsValid_of (s : Square) (hcomp : complete s) (hcons : consistent s)
    (hr : inRange s) : unitsValid s := by
  have hsome : ∀ x y : Fin 9, s x y = some (s.Get x y) :=
    fun x y => get_eq s x y (complete_isSome s hcomp x y)
  have hrange' := (inRange_iff s).mp hr
  intro v
  have hv1 : 1 ≤ v.val + 1 := by omega
  have hv9 : v.val + 1 ≤ 9 := by have := v.isLt; omega
  refine ⟨?_, ?_, ?_⟩
  · intro i
    unfold rowCount
    have hcg : (List.finRange 9).countP (fun j => decide (s i j = some (v.val + 1))) =
        (List.finRange 9).countP (fun j => decide (s.Get i j = v.val + 1)) :=
      List.countP_congr (fun j _ => by
        simp only [decide_eq_true_eq]
        rw [hsome i j, Option.some.injEq])
    rw [hcg]
    apply countP_finRange_eq_one (fun j => s.Get i j) ?_ (fun j => hrange' i j _ (hsome i j))
      _ hv1 hv9
    intro a b hab
    have hab' : s.Get i a = s.Get i b := hab
    by_contra hne
    refine hcons (i, a) (i, b) (by simp [Prod.ext_iff, hne]) (Or.inl rfl)
      (by rw [hsome i a]; exact Option.some_ne_none _) ?_
    show s i a = s i b
    rw [hsome i a, hsome i b, hab']
  · intro j
    unfold colCount
    have hcg : (List.finRange 9).countP (fun i => decide (s i j = some (v.val + 1))) =
        (List.finRange 9).countP (fun i => decide (s.Get i j = v.val + 1)) :=
      List.countP_congr (fun i _ => by
        simp only [decide_eq_true_eq]
        rw [hsome i j, Option.some.injEq])
    rw [hcg]
    apply countP_finRange_eq_one (fun i => s.Get i j) ?_ (fun i => hrange' i j _ (hsome i j))
      _ hv1 hv9
    intro a b hab
    have hab' : s.Get a j = s.Get b j := hab
    by_contra hne
    refine hcons (a, j) (b, j) (by simp [Prod.ext_iff, hne]) (Or.inr (Or.inl rfl))
      (by rw [hsome a j]; exact Option.some_ne_none _) ?_
    show s a j = s b j
    rw [hsome a j, hsome b j, hab']
  · intro bi bj
    unfold blockCount
    have hcg : (List.finRange 9).countP
        (fun k => decide (s (blockCell bi bj k).1 (blockCell bi bj k).2 = some (v.val + 1))) =
        (List.finRange 9).countP
        (fun k => decide (s.Get (blockCell bi bj k).1 (blockCell bi bj k).2 = v.val + 1)) :=
      List.countP_congr (fun k _ => by
        simp only [decide_eq_true_eq]
        rw [hsome (blockCell bi bj k).1 (blockCell bi bj k).2, Option.some.injEq])
    rw [hcg]
    apply countP_finRange_eq_one
      (fun k => s.Get (blockCell bi bj k).1 (blockCell bi bj k).2) ?_
      (fun k => hrange' _ _ _ (hsome _ _)) _ hv1 hv9
    intro a b hab
    have hab' : s.Get (blockCell bi bj a).1 (blockCell bi bj a).2 =
        s.Get (blockCell bi bj b).1 (blockCell bi bj b).2 := hab
    by_contra hne
    have hcells : blockCell bi bj a ≠ blockCell bi bj b := by
      intro hcc
      exact hne (blockCell_injective bi bj hcc)
    refine hcons (blockCell bi bj a) (blockCell bi bj b) hcells
      (Or.inr (Or.inr (blockCell_sameUnit bi bj a b))) (by rw [hsome]; exact Option.some_ne_none _) ?_
    show s (blockCell bi bj a).1 (blockCell bi bj a).2 = s (blockCell bi bj b).1 (blockCell bi bj b).2
    rw [hsome (blockCell bi bj a).1 (blockCell bi bj a).2,
      hsome (blockCell bi bj b).1 (blockCell bi bj b).2, hab']

/- ----------------------------------------------------------------------
   Load: structural lemmas and invariants.
   ---------------------------------------------------------------------- -/

theorem consistent_Clear (s : Square) (x y : Fin 9) (hc : consistent s) :
    consistent (s.Clear x y) := by
  intro a b hab hunit hne
  by_cases ha : a.1 = x ∧ a.2 = y
  · exact absurd (by simp [Square.Clear, ha.1, ha.2]) hne
  · have ea : (s.Clear x y) a.1 a.2 = s a.1 a.2 := by simp only [Square.Clear, if_neg ha]
    rw [ea] at hne ⊢
    by_cases hb : b.1 = x ∧ b.2 = y
    · have eb : (s.Clear x y) b.1 b.2 = none := by simp only [Square.Clear, if_pos hb]
      rw [eb]
      exact hne
    · have eb : (s.Clear x y) b.1 b.2 = s b.1 b.2 := by simp only [Square.Clear, if_neg hb]
      rw [eb]
      exact hc a b hab hunit hne

theorem valuesLe9_iff (s : Square) :
    valuesLe9 s ↔ ∀ x y : Fin 9, ∀ v, s x y = some v → v ≤ 9 := by
  unfold valuesLe9
  constructor
  · intro h x y v hv
    have hxy := h x y
    rw [hv] at hxy
    simpa using hxy
  · intro h x y
    cases hxy : s x y with
    | none => simp
    | some v => simpa using h x y v hxy

theorem valuesLe9_Set (s : Square) (x y : Fin 9) (v : Nat)
    (h : valuesLe9 s) (h9 : v ≤ 9) : valuesLe9 (s.Set x y v) := by
  rw [valuesLe9_iff] at h ⊢
  intro i j w hw
  rw [Set_apply] at hw
  by_cases hij : i = x ∧ j = y
  · rw [if_pos hij] at hw
    cases hw
    exact h9
  · rw [if_neg hij] at hw
    exact h i j w hw

theorem valuesLe9_Clear (s : Square) (x y : Fin 9) (h : valuesLe9 s) :
    valuesLe9 (s.Clear x y) := by
  rw [valuesLe9_iff] at h ⊢
  intro i j w hw
  by_cases hij : i = x ∧ j = y
  · rw [show (s.Clear x y) i j = none from by simp only [Square.Clear, if_pos hij]] at hw
    cases hw
  · rw [show (s.Clear x y) i j = s i j from by simp only [Square.Clear, if_neg hij]] at hw
    exact h i j w hw

theorem loadToken_inv (g : Game) (x y : Fin 9) (val : List Char) (g' : Game)
    (h : loadToken g x y val = .ok g') :
    (consistent g.square → consistent g'.square) ∧
    (valuesLe9 g.square → valuesLe9 g'.square) := by
  unfold loadToken at h
  by_cases hu : val = ['_']
  · rw [if_pos hu] at h
    simp only [Except.ok.injEq] at h
    subst h
    exact ⟨consistent_Clear g.square x y, valuesLe9_Clear g.square x y⟩
  · rw [if_neg hu] at h
    cases ha : atoi val with
    | none =>
      rw [ha] at h
      exact Except.noConfusion h
    | some num =>
      rw [ha] at h
      dsimp only at h
      split_ifs at h with hr hal
      simp only [Except.ok.injEq] at h
      subst h
      have hallow : g.square.IsAllowed x y num.toNat = true := by
        revert hal
        cases g.square.IsAllowed x y num.toNat <;> simp
      have hmem : num.toNat ∉ mergedValues g.square x y := by
        have hdec := hallow
        unfold Square.IsAllowed at hdec
        simpa using hdec
      have h9 : num.toNat ≤ 9 := by omega
      exact ⟨fun hc => consistent_Set g.square x y num.toNat hc hmem,
        fun hv => valuesLe9_Set g.square x y num.toNat hv h9⟩

theorem loadRow_inv :
    ∀ (ts : List (Fin 9 × List Char)) (g : Game) (x : Fin 9) (g' : Game),
      loadRow g x ts = .ok g' →
      (consistent g.square → consistent g'.square) ∧
      (valuesLe9 g.square → valuesLe9 g'.square) := by
  intro ts
  induction ts with
  | nil =>
    intro g x g' h
    simp only [loadRow, Except.ok.injEq] at h
    subst h
    exact ⟨id, id⟩
  | cons t rest ih =>
    intro g x g' h
    obtain ⟨y, val⟩ := t
    rw [loadRow] at h
    cases ht : loadToken g x y val with
    | error e =>
      rw [ht] at h
      exact Except.noConfusion h
    | ok gm =>
      rw [ht] at h
      change loadRow gm x rest = .ok g' at h
      obtain ⟨c1, v1⟩ := loadToken_inv g x y val gm ht
      obtain ⟨c2, v2⟩ := ih gm x g' h
      exact ⟨fun hc => c2 (c1 hc), fun hv => v2 (v1 hv)⟩

theorem loadRows_inv :
    ∀ (ls : List (List Char)) (g : Game) (x n : Nat) (g' : Game) (n' : Nat),
      loadRows g x n ls = .ok (g', n') →
      (consistent g.square → consistent g'.square) ∧
      (valuesLe9 g.square → valuesLe9 g'.square) := by
  intro ls
  induction ls with
  | nil =>
    intro g x n g' n' h
    simp only [loadRows, Except.ok.injEq, Prod.mk.injEq] at h
    obtain ⟨rfl, rfl⟩ := h
    exact ⟨id, id⟩
  | cons line rest ih =>
    intro g x n g' n' h
    rw [loadRows] at h
    split_ifs at h with h9 he
    · simp only [Except.ok.injEq, Prod.mk.injEq] at h
      obtain ⟨rfl, rfl⟩ := h
      exact ⟨id, id⟩
    · simp only [Except.ok.injEq, Prod.mk.injEq] at h
      obtain ⟨rfl, rfl⟩ := h
      exact ⟨id, id⟩
    · dsimp only at h
      split_ifs at h with hcols
      cases hlr : loadRow g ⟨x, by omega⟩ ((List.finRange 9).zip (goSplit ' ' line)) with
      | error e =>
        rw [hlr] at h
        exact Except.noConfusion h
      | ok gm =>
        rw [hlr] at h
        change loadRows gm (x + 1) (n + 1) rest = .ok (g', n') at h
        obtain ⟨c1, v1⟩ := loadRow_inv _ g _ gm hlr
        obtain ⟨c2, v2⟩ := ih gm (x + 1) (n + 1) g' n' h
        exact ⟨fun hc => c2 (c1 hc), fun hv => v2 (v1 hv)⟩

theorem newGame_consistent : consistent newGame.square := by
  intro a b hab hunit hne
  exact absurd rfl hne

theorem newGame_valuesLe9 : valuesLe9 newGame.square := by
  intro x y
  simp [newGame]

theorem Load_ok_elim (s : String) (g : Game) (h : Load s = .ok g) :
    ∃ r : Game × Nat, loadRows newGame 0 0 (goSplit '\n' s.data) = .ok r ∧ r.2 = 9 ∧
      g = { r.1 with CellsToBeSolved := countEmptyValues r.1.square } := by
  unfold Load at h
  cases hlr : loadRows newGame 0 0 (goSplit '\n' s.data) with
  | error e =>
    rw [hlr] at h
    exact Except.noConfusion h
  | ok r =>
    rw [hlr] at h
    replace h : (if r.2 ≠ 9 then Except.error (LoadError.notEnoughRows 9 r.2)
      else Except.ok { r.1 with CellsToBeSolved := countEmptyValues r.1.square }) =
        Except.ok g := h
    split_ifs at h with h2
    simp only [Except.ok.injEq] at h
    exact ⟨r, rfl, by omega, h.symm⟩

theorem Load_consistent (s : String) (g : Game) (h : Load s = .ok g) :
    consistent g.square := by
  obtain ⟨r, hlr, _, rfl⟩ := Load_ok_elim s g h
  exact (loadRows_inv _ newGame 0 0 r.1 r.2 (by rw [hlr])).1 newGame_consistent

theorem Load_valuesLe9 (s : String) (g : Game) (h : Load s = .ok g) :
    valuesLe9 g.square := by
  obtain ⟨r, hlr, _, rfl⟩ := Load_ok_elim s g h
  exact (loadRows_inv _ newGame 0 0 r.1 r.2 (by rw [hlr])).2 newGame_valuesLe9

theorem Load_cellsToBeSolved (s : String) (g : Game) (h : Load s = .ok g) :
    g.CellsToBeSolved = countEmptyValues g.square := by
  obtain ⟨r, _, _, rfl⟩ := Load_ok_elim s g h
  rfl

/- ----------------------------------------------------------------------
   The row loop of Load: break behavior and the row-count error.
   ---------------------------------------------------------------------- -/

theorem loadRows_ignores_extra :
    ∀ (ls : List (List Char)) (g : Game) (x n : Nat) (rest : List (List Char)),
      9 ≤ x + ls.length → loadRows g x n (ls ++ rest) = loadRows g x n ls := by
  intro ls
  induction ls with
  | nil =>
    intro g x n rest h9
    have hx : 9 ≤ x := by simpa using h9
    simp only [List.nil_append]
    cases rest with
    | nil => rfl
    | cons line rest' =>
      simp only [loadRows]
      rw [dif_pos hx]
  | cons line ls ih =>
    intro g x n rest h9
    rw [List.cons_append, loadRows, loadRows]
    by_cases hx : 9 ≤ x
    · rw [dif_pos hx, dif_pos hx]
    · rw [dif_neg hx, dif_neg hx]
      by_cases he : line = []
      · rw [if_pos he, if_pos he]
      · rw [if_neg he, if_neg he]
        dsimp only
        by_cases hcols : (goSplit ' ' line).length ≠ 9
        · rw [if_pos hcols, if_pos hcols]
        · rw [if_neg hcols, if_neg hcols]
          cases hlr : loadRow g ⟨x, by omega⟩ ((List.finRange 9).zip (goSplit ' ' line)) with
          | error e => rfl
          | ok gm =>
            show loadRows gm (x + 1) (n + 1) (ls ++ rest) = loadRows gm (x + 1) (n + 1) ls
            exact ih gm (x + 1) (n + 1) rest (by
              simp only [List.length_cons] at h9
              omega)

theorem loadRows_empty_line (g : Game) (x n : Nat) (rest : List (List Char)) :
    loadRows g x n ([] :: rest) = .ok (g, n) := by
  rw [loadRows]
  by_cases hx : 9 ≤ x
  · rw [dif_pos hx]
  · rw [dif_neg hx, if_pos rfl]

theorem loadToken_ne (g : Game) (x y : Fin 9) (val : List Char) (a b : Nat) :
    loadToken g x y val ≠ .error (.notEnoughRows a b) := by
  unfold loadToken
  intro h
  by_cases hu : val = ['_']
  · rw [if_pos hu] at h
    exact Except.noConfusion h
  · rw [if_neg hu] at h
    cases ha : atoi val with
    | none =>
      rw [ha] at h
      simp at h
    | some num =>
      rw [ha] at h
      dsimp only at h
      split_ifs at h <;> simp at h

theorem loadRow_ne :
    ∀ (ts : List (Fin 9 × List Char)) (g : Game) (x : Fin 9) (a b : Nat),
      loadRow g x ts ≠ .error (.notEnoughRows a b) := by
  intro ts
  induction ts with
  | nil =>
    intro g x a b h
    exact Except.noConfusion h
  | cons t rest ih =>
    intro g x a b h
    obtain ⟨y, val⟩ := t
    rw [loadRow] at h
    cases ht : loadToken g x y val with
    | error e =>
      rw [ht] at h
      replace h : Except.error e = Except.error (LoadError.notEnoughRows a b) := h
      simp only [Except.error.injEq] at h
      subst h
      exact loadToken_ne g x y val a b ht
    | ok gm =>
      rw [ht] at h
      exact ih gm x a b h

theorem loadRows_ne :
    ∀ (ls : List (List Char)) (g : Game) (x n : Nat) (a b : Nat),
      loadRows g x n ls ≠ .error (.notEnoughRows a b) := by
  intro ls
  induction ls with
  | nil =>
    intro g x n a b h
    exact Except.noConfusion h
  | cons line rest ih =>
    intro g x n a b h
    rw [loadRows] at h
    split_ifs at h with h9 he
    dsimp only at h
    split_ifs at h with hcols
    · simp at h
    · cases hlr : loadRow g ⟨x, by omega⟩ ((List.finRange 9).zip (goSplit ' ' line)) with
      | error e =>
        rw [hlr] at h
        replace h : Except.error e = Except.error (LoadError.notEnoughRows a b) := h
        simp only [Except.error.injEq] at h
        subst h
        exact loadRow_ne _ g _ a b hlr
      | ok gm =>
        rw [hlr] at h
        exact ih gm (x + 1) (n + 1) a b h

theorem loadRows_linesRead_le :
    ∀ (ls : List (List Char)) (g : Game) (x n : Nat) (g' : Game) (n' : Nat),
      x ≤ 9 → n ≤ x → loadRows g x n ls = .ok (g', n') → n' ≤ 9 := by
  intro ls
  induction ls with
  | nil =>
    intro g x n g' n' hx hn h
    simp only [loadRows, Except.ok.injEq, Prod.mk.injEq] at h
    omega
  | cons line rest ih =>
    intro g x n g' n' hx hn h
    rw [loadRows] at h
    split_ifs at h with h9 he
    · simp only [Except.ok.injEq, Prod.mk.injEq] at h
      omega
    · simp only [Except.ok.injEq, Prod.mk.injEq] at h
      omega
    · dsimp only at h
      split_ifs at h with hcols
      cases hlr : loadRow g ⟨x, by omega⟩ ((List.finRange 9).zip (goSplit ' ' line)) with
      | error e =>
        rw [hlr] at h
        exact Except.noConfusion h
      | ok gm =>
        rw [hlr] at h
        change loadRows gm (x + 1) (n + 1) rest = .ok (g', n') at h
        exact ih gm (x + 1) (n + 1) g' n' (by omega) (by omega) h

theorem Load_notEnoughRows_iff (s : String) (g : Game) (n : Nat)
    (h : loadRows newGame 0 0 (goSplit '\n' s.data) = .ok (g, n)) :
    (Load s = .error (.notEnoughRows 9 n) ↔ n < 9) := by
  have hle : n ≤ 9 := loadRows_linesRead_le _ newGame 0 0 g n (by omega) (by omega) h
  unfold Load
  rw [h]
  have hred : (Except.ok (g, n)).bind (fun r =>
      if r.2 ≠ 9 then Except.error (LoadError.notEnoughRows 9 r.2)
      else Except.ok { r.1 with CellsToBeSolved := countEmptyValues r.1.square }) =
      (if n ≠ 9 then Except.error (LoadError.notEnoughRows 9 n)
      else Except.ok { g with CellsToBeSolved := countEmptyValues g.square }) := rfl
  rw [hred]
  constructor
  · intro he
    by_cases h2 : n ≠ 9
    · omega
    · rw [if_neg h2] at he
      exact absurd he (fun hh => Except.noConfusion hh)
  · intro hlt
    rw [if_pos (by omega)]

theorem Load_ok_of_nine (s : String) (g : Game)
    (h : loadRows newGame 0 0 (goSplit '\n' s.data) = .ok (g, 9)) :
    Load s = .ok { g with CellsToBeSolved := countEmptyValues g.square } := by
  unfold Load
  rw [h]
  rfl

/- ----------------------------------------------------------------------
   A successful scan constrains every token it processed: each scanned
   token is the blank marker or parses to an integer in 0..9.
   ---------------------------------------------------------------------- -/

theorem loadRows_linesRead_ge :
    ∀ (ls : List (List Char)) (g : Game) (x n : Nat) (g' : Game) (n' : Nat),
      loadRows g x n ls = .ok (g', n') → n ≤ n' := by
  intro ls
  induction ls with
  | nil =>
    intro g x n g' n' h
    simp only [loadRows, Except.ok.injEq, Prod.mk.injEq] at h
    omega
  | cons line rest ih =>
    intro g x n g' n' h
    rw [loadRows] at h
    split_ifs at h with h9 he
    · simp only [Except.ok.injEq, Prod.mk.injEq] at h
      omega
    · simp only [Except.ok.injEq, Prod.mk.injEq] at h
      omega
    · dsimp only at h
      split_ifs at h with hcols
      cases hlr : loadRow g ⟨x, by omega⟩ ((List.finRange 9).zip (goSplit ' ' line)) with
      | error e =>
        rw [hlr] at h
        exact Except.noConfusion h
      | ok gm =>
        rw [hlr] at h
        change loadRows gm (x + 1) (n + 1) rest = .ok (g', n') at h
        have hge := ih gm (x + 1) (n + 1) g' n' h
        omega

theorem loadToken_ok_token (g : Game) (x y : Fin 9) (val : List Char) (g' : Game)
    (h : loadToken g x y val = .ok g') :
    val = ['_'] ∨ ∃ num : Int, atoi val = some num ∧ 0 ≤ num ∧ num ≤ 9 := by
  unfold loadToken at h
  by_cases hu : val = ['_']
  · exact Or.inl hu
  · rw [if_neg hu] at h
    cases ha : atoi val with
    | none =>
      rw [ha] at h
      exact Except.noConfusion h
    | some num =>
      rw [ha] at h
      dsimp only at h
      split_ifs at h with hr hal
      exact Or.inr ⟨num, rfl, by omega, by omega⟩

theorem loadRow_ok_tokens :
    ∀ (ts : List (Fin 9 × List Char)) (g : Game) (x : Fin 9) (g' : Game),
      loadRow g x ts = .ok g' →
      ∀ t ∈ ts, t.2 = ['_'] ∨ ∃ num : Int, atoi t.2 = some num ∧ 0 ≤ num ∧ num ≤ 9 := by
  intro ts
  induction ts with
  | nil =>
    intro g x g' h t ht
    cases ht
  | cons t0 rest ih =>
    intro g x g' h t ht
    obtain ⟨y, val⟩ := t0
    rw [loadRow] at h
    cases hlt : loadToken g x y val with
    | error e =>
      rw [hlt] at h
      exact Except.noConfusion h
    | ok gm =>
      rw [hlt] at h
      change loadRow gm x rest = .ok g' at h
      rcases List.mem_cons.mp ht with rfl | htr
      · exact loadToken_ok_token g x y val gm hlt
      · exact ih gm x g' h t htr

theorem mem_zip_right {α β : Type} :
    ∀ (fs : List α) (l : List β), l.length ≤ fs.length →
      ∀ v ∈ l, ∃ y, (y, v) ∈ fs.zip l := by
  intro fs
  induction fs with
  | nil =>
    intro l hl v hv
    cases l with
    | nil => cases hv
    | cons b t => simp at hl
  | cons y0 fs' ih =>
    intro l hl v hv
    cases l with
    | nil => cases hv
    | cons v0 l' =>
      rcases List.mem_cons.mp hv with rfl | hvl
      · refine ⟨y0, ?_⟩
        rw [List.zip_cons_cons]
        exact List.mem_cons_self _ _
      · obtain ⟨y, hy⟩ := ih l' (by simp only [List.length_cons] at hl; omega) v hvl
        refine ⟨y, ?_⟩
        rw [List.zip_cons_cons]
        exact List.mem_cons_of_mem _ hy

theorem loadRows_ok_tokens :
    ∀ (ls : List (List Char)) (g : Game) (x n : Nat) (g' : Game) (n' : Nat),
      loadRows g x n ls = .ok (g', n') →
      ∀ line ∈ ls.take (n' - n), ∀ val ∈ goSplit ' ' line,
        val = ['_'] ∨ ∃ num : Int, atoi val = some num ∧ 0 ≤ num ∧ num ≤ 9 := by
  intro ls
  induction ls with
  | nil =>
    intro g x n g' n' h line hline
    simp at hline
  | cons l0 rest ih =>
    intro g x n g' n' h line hline
    rw [loadRows] at h
    split_ifs at h with h9 he
    · simp only [Except.ok.injEq, Prod.mk.injEq] at h
      obtain ⟨_, rfl⟩ := h
      simp at hline
    · simp only [Except.ok.injEq, Prod.mk.injEq] at h
      obtain ⟨_, rfl⟩ := h
      simp at hline
    · dsimp only at h
      split_ifs at h with hcols
      cases hlr : loadRow g ⟨x, by omega⟩ ((List.finRange 9).zip (goSplit ' ' l0)) with
      | error e =>
        rw [hlr] at h
        exact Except.noConfusion h
      | ok gm =>
        rw [hlr] at h
        change loadRows gm (x + 1) (n + 1) rest = .ok (g', n') at h
        have hge : n + 1 ≤ n' := loadRows_linesRead_ge rest gm (x + 1) (n + 1) g' n' h
        rw [show n' - n = (n' - (n + 1)) + 1 from by omega, List.take_succ_cons] at hline
        rcases List.mem_cons.mp hline with rfl | hrest
        · intro val hval
          have hlen : (goSplit ' ' line).length ≤ (List.finRange 9).length := by
            rw [not_ne_iff.mp hcols, List.length_finRange]
          obtain ⟨y, hy⟩ := mem_zip_right (List.finRange 9) (goSplit ' ' line) hlen val hval
          exact loadRow_ok_tokens _ g ⟨x, by omega⟩ gm hlr (y, val) hy
        · exact ih gm (x + 1) (n + 1) g' n' h line hrest

theorem Load_ok_scanned_tokens (s : String) (g : Game) (h : Load s = .ok g) :
    ∀ line ∈ (goSplit '\n' s.data).take 9, ∀ val ∈ goSplit ' ' line,
      val = ['_'] ∨ ∃ num : Int, atoi val = some num ∧ 0 ≤ num ∧ num ≤ 9 := by
  obtain ⟨r, hlr, h9, _⟩ := Load_ok_elim s g h
  have hall := loadRows_ok_tokens _ newGame 0 0 r.1 r.2 (by rw [hlr])
  rw [h9] at hall
  simpa using hall

/- ----------------------------------------------------------------------
   The collection loop of waitforCompletion.
   ---------------------------------------------------------------------- -/

theorem solutionExists_false (sols : List Game) (a : Game)
    (h : solutionExists sols a = false) : ∀ s ∈ sols, s.square ≠ a.square := by
  intro s hs
  unfold solutionExists at h
  rw [List.any_eq_false] at h
  have hsa := h s hs
  simpa using hsa

theorem waitLoop_acc (arrivals : List Game) :
    ∀ (acc : List Game) (m : Int),
      ∃ l, waitLoop arrivals acc m = acc ++ l ∧ l.Sublist arrivals := by
  induction arrivals with
  | nil =>
    intro acc m
    exact ⟨[], by simp [waitLoop], List.nil_sublist []⟩
  | cons a rest ih =>
    intro acc m
    rw [waitLoop]
    dsimp only
    split_ifs with hex hmin
    · obtain ⟨l, hl, hs⟩ := ih acc m
      exact ⟨l, hl, hs.cons a⟩
    · exact ⟨[a], rfl, (List.nil_sublist rest).cons₂ a⟩
    · obtain ⟨l, hl, hs⟩ := ih (acc ++ [a]) m
      refine ⟨a :: l, ?_, hs.cons₂ a⟩
      rw [hl, List.append_assoc]
      rfl

theorem waitLoop_pairwise (arrivals : List Game) :
    ∀ (acc : List Game) (m : Int),
      acc.Pairwise (fun u w : Game => u.square ≠ w.square) →
      (waitLoop arrivals acc m).Pairwise (fun u w : Game => u.square ≠ w.square) := by
  induction arrivals with
  | nil =>
    intro acc m h
    exact h
  | cons a rest ih =>
    intro acc m hp
    rw [waitLoop]
    dsimp only
    have hadd : ¬solutionExists acc a = true →
        (acc ++ [a]).Pairwise (fun u w : Game => u.square ≠ w.square) := by
      intro hex
      have hnew : ∀ s ∈ acc, s.square ≠ a.square :=
        solutionExists_false acc a (by revert hex; cases solutionExists acc a <;> simp)
      refine List.pairwise_append.mpr ⟨hp, List.pairwise_singleton _ a, ?_⟩
      intro u hu w hw
      rw [List.mem_singleton] at hw
      subst hw
      exact hnew u hu
    split_ifs with hex hmin
    · exact ih acc m hp
    · exact hadd hex
    · exact ih (acc ++ [a]) m (hadd hex)

theorem waitLoop_length_lt (arrivals : List Game) :
    ∀ (acc : List Game) (m : Int), (acc.length : Int) < m →
      ((waitLoop arrivals acc m).length : Int) ≤ m := by
  induction arrivals with
  | nil =>
    intro acc m h
    exact le_of_lt h
  | cons a rest ih =>
    intro acc m h
    rw [waitLoop]
    dsimp only
    split_ifs with hex hmin
    · exact ih acc m h
    · simp only [List.length_append, List.length_singleton]
      omega
    · refine ih (acc ++ [a]) m ?_
      simp only [List.length_append, List.length_singleton] at hmin ⊢
      omega

theorem waitLoop_length_ge (arrivals : List Game) :
    ∀ (acc : List Game) (m : Int), m ≤ (acc.length : Int) →
      (waitLoop arrivals acc m).length ≤ acc.length + 1 := by
  induction arrivals with
  | nil =>
    intro acc m h
    exact Nat.le_succ _
  | cons a rest ih =>
    intro acc m h
    rw [waitLoop]
    dsimp only
    split_ifs with hex hmin
    · exact Nat.le_of_lt_succ (Nat.lt_succ_of_le (ih acc m h))
    · simp only [List.length_append, List.length_singleton]
      exact le_rfl
    · exfalso
      simp only [List.length_append, List.length_singleton] at hmin
      omega

/- ----------------------------------------------------------------------
   C4: the sweep equals its claim-side formulation.
   ---------------------------------------------------------------------- -/

theorem mem_candSet (s : Square) (x y : Fin 9) (v : Nat) :
    v ∈ candSet s x y ↔ 1 ≤ v ∧ v ≤ 9 ∧ v ∉ mergedValues s x y := by
  unfold candSet usedRowSet usedColSet usedBlockSet
  rw [Finset.mem_sdiff, Finset.mem_Icc]
  constructor
  · rintro ⟨⟨h1, h9⟩, hnot⟩
    refine ⟨h1, h9, fun hmem => hnot ?_⟩
    rw [mem_mergedValues] at hmem
    obtain ⟨p, hunit, hp⟩ := hmem
    rcases hunit with hr | hr | ⟨hb1, hb2⟩
    · apply Finset.mem_union_left
      apply Finset.mem_union_left
      rw [Finset.mem_biUnion]
      refine ⟨p.2, Finset.mem_univ _, ?_⟩
      have hr' : x = p.1 := hr
      rw [Option.mem_toFinset, Option.mem_def, hr']
      exact hp
    · apply Finset.mem_union_left
      apply Finset.mem_union_right
      rw [Finset.mem_biUnion]
      refine ⟨p.1, Finset.mem_univ _, ?_⟩
      have hr' : y = p.2 := hr
      rw [Option.mem_toFinset, Option.mem_def, hr']
      exact hp
    · apply Finset.mem_union_right
      rw [Finset.mem_biUnion]
      refine ⟨p, Finset.mem_univ _, ?_⟩
      rw [if_pos ⟨hb1.symm, hb2.symm⟩, Option.mem_toFinset, Option.mem_def]
      exact hp
  · rintro ⟨h1, h9, hnot⟩
    refine ⟨⟨h1, h9⟩, fun hmem => hnot ?_⟩
    rw [mem_mergedValues]
    rcases Finset.mem_union.mp hmem with hm | hm
    · rcases Finset.mem_union.mp hm with hm' | hm'
      · obtain ⟨b, _, hb⟩ := Finset.mem_biUnion.mp hm'
        rw [Option.mem_toFinset, Option.mem_def] at hb
        exact ⟨(x, b), Or.inl rfl, hb⟩
      · obtain ⟨a, _, hb⟩ := Finset.mem_biUnion.mp hm'
        rw [Option.mem_toFinset, Option.mem_def] at hb
        exact ⟨(a, y), Or.inr (Or.inl rfl), hb⟩
    · obtain ⟨p, _, hb⟩ := Finset.mem_biUnion.mp hm
      by_cases hcond : p.1.val / 3 = x.val / 3 ∧ p.2.val / 3 = y.val / 3
      · rw [if_pos hcond, Option.mem_toFinset, Option.mem_def] at hb
        exact ⟨p, Or.inr (Or.inr ⟨hcond.1.symm, hcond.2.symm⟩), hb⟩
      · rw [if_neg hcond] at hb
        exact absurd hb (Finset.not_mem_empty v)

theorem candSet_eq (s : Square) (x y : Fin 9) :
    candSet s x y = (findCandidates s x y).toFinset := by
  ext v
  rw [List.mem_toFinset, mem_findCandidates, mem_candSet]

theorem candSet_card (s : Square) (x y : Fin 9) :
    (candSet s x y).card = (findCandidates s x y).length := by
  rw [candSet_eq, List.toFinset_card_of_nodup (findCandidates_nodup s x y)]

theorem stepGo_eq_stepClaimGo :
    ∀ (L : List (Fin 9 × Fin 9)) (g : Game) (n : Nat),
      stepGo L g n = stepClaimGo L g n := by
  intro L
  induction L with
  | nil => intro g n; rfl
  | cons p rest ih =>
    intro g n
    rw [stepGo, stepClaimGo]
    by_cases hs : (g.square p.1 p.2).isSome
    · rw [if_pos hs, if_pos hs]
      exact ih g n
    · rw [if_neg hs, if_neg hs]
      dsimp only
      cases hc : findCandidates g.square p.1 p.2 with
      | nil =>
        rw [if_pos (by rw [candSet_card, hc]; rfl)]
      | cons v tail =>
        have hcard0 : ¬(candSet g.square p.1 p.2).card = 0 := by
          rw [candSet_card, hc]
          simp
        rw [if_neg hcard0]
        cases tail with
        | nil =>
          have hcard1 : (candSet g.square p.1 p.2).card = 1 := by
            rw [candSet_card, hc]
            rfl
          rw [if_pos hcard1]
          have hsort : (candSet g.square p.1 p.2).sort (· ≤ ·) = [v] := by
            rw [candSet_eq, hc]
            simp
          rw [hsort]
          exact ih _ _
        | cons w tail2 =>
          have hcard1 : ¬(candSet g.square p.1 p.2).card = 1 := by
            rw [candSet_card, hc]
            simp
          rw [if_neg hcard1]
          exact ih g n

theorem step_eq_stepClaim (g : Game) : step g = stepClaim g :=
  stepGo_eq_stepClaimGo allCoords g 0

/- ----------------------------------------------------------------------
   Final helpers.
   ---------------------------------------------------------------------- -/

theorem headD_mem {α : Type} (l : List α) (d : α) (h : ¬l = []) : l.headD d ∈ l := by
  cases l with
  | nil => exact absurd rfl h
  | cons a rest => exact List.mem_cons_self a rest

theorem waitforCompletion_fst (arrivals : List Game) (m : Int) (verbose : Bool) :
    (waitforCompletion arrivals m verbose).1 = waitLoop arrivals [] m := by
  unfold waitforCompletion
  dsimp only
  split_ifs <;> rfl

theorem mem_Solve_mem_solveGo (g : Game) (timeout : Nat) (m : Int) (fuel : Nat)
    (verbose : Bool) (sol : Game) (h : sol ∈ (Solve g timeout m fuel verbose).1) :
    sol ∈ solveGo fuel { g with solutionChannel := 1, deadline := timeout } := by
  unfold Solve at h
  rw [waitforCompletion_fst] at h
  obtain ⟨l, hl, hs⟩ :=
    waitLoop_acc (solveGo fuel { g with solutionChannel := 1, deadline := timeout }) [] m
  rw [hl] at h
  simp only [List.nil_append] at h
  exact hs.subset h

/- ----------------------------------------------------------------------
   Claim theorems.
   ---------------------------------------------------------------------- -/

set_option maxRecDepth 100000

/-- C1, counterexample: `zeroStr` is accepted by `Load` (the token `0`
passes the range check `num < 0 || num > 9`), and the single grid its search
tree reports on the solution channel still holds the out-of-range value 0,
so some row does not contain each of 1..9 exactly once.  This refutes the
claim as stated: a `Load`-accepted game can yield a reported grid that is
not fully valid. -/
theorem C1_counterexample :
    (Load zeroStr).toOption.isSome = true ∧
    (solveGo 1 zeroGame).length = 1 ∧
    zeroSolution.square 0 0 = some 0 ∧
    ¬ unitsValid zeroSolution.square := by
  refine ⟨by decide, by decide, by decide, by decide⟩

/-- C1 (amended): for every Game produced by `Load` whose clue values all lie
in 1..9, every grid reported on the solution channel by `solve` — and hence
every grid returned by `Solve` — has every row, column and 3x3 block
containing each value 1..9 exactly once. -/
theorem C1_solutions_valid :
    ∀ (s : String) (g : Game), Load s = .ok g → inRange g.square →
      ∀ (timeout : Nat) (minSolutionCount : Int) (fuel : Nat) (verbose : Bool),
        (∀ sol ∈ solveGo fuel { g with solutionChannel := 1, deadline := timeout },
          unitsValid sol.square) ∧
        (∀ sol ∈ (Solve g timeout minSolutionCount fuel verbose).1,
          unitsValid sol.square) := by
  intro s g hload hr timeout m fuel verbose
  have hcons : consistent g.square := Load_consistent s g hload
  have hmain : ∀ sol ∈ solveGo fuel { g with solutionChannel := 1, deadline := timeout },
      unitsValid sol.square := by
    intro sol hsol
    obtain ⟨hp, hcomp⟩ := solveGo_inv fuel _ sol hsol
    exact unitsValid_of _ hcomp (hp.2.1 hcons) (hp.2.2.1 hr)
  exact ⟨hmain, fun sol hsol =>
    hmain sol (mem_Solve_mem_solveGo g timeout m fuel verbose sol hsol)⟩

/-- Witness for C1: the 80-clue puzzle `clean80Str` loads with all values in
range, and the solution its search reports is fully valid. -/
theorem C1_solutions_valid_witness :
    Load clean80Str = .ok clean80Game ∧
    inRange clean80Game.square ∧
    unitsValid ((solveGo 1
      { clean80Game with solutionChannel := 1, deadline := 5 }).headD dfltGame).square := by
  have hload : Load clean80Str = .ok clean80Game := by decide
  have hr : inRange clean80Game.square := by decide
  refine ⟨hload, hr, ?_⟩
  exact (C1_solutions_valid clean80Str clean80Game hload hr 5 1 1 false).1 _
    (headD_mem _ _ (by decide))

/-- C2: for every Game produced by `Load` and every cell holding a value in
that initial grid, the same cell holds the same value in every grid the
search reports and in every solution `Solve` returns: neither the sweep nor
the branching step ever writes to an occupied cell. -/
theorem C2_initial_cells_preserved :
    ∀ (s : String) (g : Game), Load s = .ok g →
      ∀ (timeout : Nat) (minSolutionCount : Int) (fuel : Nat) (verbose : Bool)
        (x y : Fin 9) (v : Nat), g.square x y = some v →
        (∀ sol ∈ solveGo fuel { g with solutionChannel := 1, deadline := timeout },
          sol.square x y = some v) ∧
        (∀ sol ∈ (Solve g timeout minSolutionCount fuel verbose).1,
          sol.square x y = some v) := by
  intro s g _ timeout m fuel verbose x y v hv
  have hmain : ∀ sol ∈ solveGo fuel { g with solutionChannel := 1, deadline := timeout },
      sol.square x y = some v := by
    intro sol hsol
    exact (solveGo_inv fuel _ sol hsol).1.1 x y v hv
  exact ⟨hmain, fun sol hsol =>
    hmain sol (mem_Solve_mem_solveGo g timeout m fuel verbose sol hsol)⟩

/-- Witness for C2: the clue `2` at cell (0,1) of `clean80Str` survives into
the reported solution. -/
theorem C2_initial_cells_preserved_witness :
    Load clean80Str = .ok clean80Game ∧
    clean80Game.square 0 1 = some 2 ∧
    ((solveGo 1 { clean80Game with solutionChannel := 1, deadline := 5 }).headD
      dfltGame).square 0 1 = some 2 := by
  have hload : Load clean80Str = .ok clean80Game := by decide
  have hv : clean80Game.square 0 1 = some 2 := by decide
  refine ⟨hload, hv, ?_⟩
  exact (C2_initial_cells_preserved clean80Str clean80Game hload 5 1 1 false 0 1 2 hv).1 _
    (headD_mem _ _ (by decide))

/-- C3: the "No solutions found" error of `waitforCompletion` is only
produced when the global `Verbose` flag is set; with the flag off the
function returns an empty list and a nil error, contradicting the
requirement that zero accepted solutions always surface as an error. -/
theorem C3_no_solutions_error_gated :
    waitforCompletion [] 1 false = ([], none) ∧
    waitforCompletion [] 1 true = ([], some "No solutions found") :=
  ⟨rfl, rfl⟩

/-- C4: one propagation sweep is exactly the claim's algorithm: scan the 81
coordinates in row-major order; for each still-empty cell take the candidate
set {1..9} minus the union of the values used in its row, column and block;
an empty set returns the sentinel -1 at once with no further modification; a
singleton is placed immediately (visible to later cells of the same sweep)
with a provenance record marked not-initial/not-guess and is counted; larger
sets are left untouched; otherwise the count of fixed cells is returned. -/
theorem C4_step_follows_claim : ∀ g : Game, step g = stepClaim g :=
  step_eq_stepClaim

/-- C6, counterexample: with `minSolutionCount = 0` the collector still
accepts the first arriving solution before checking the bound, so `Solve`
returns one grid — more than `minSolutionsWanted` grids.  The "at most
`minSolutionsWanted`" part of the claim is false as stated. -/
theorem C6_counterexample :
    ¬ (((Solve clean80Game 5 0 1 false).1.length : Int) ≤ 0) := by
  decide

/-- C6 (amended): the collector keeps the accepted list pairwise distinct
under full grid-content equality, appends accepted solutions in arrival
order (the result is a sublist of the arrival sequence), and exits as soon
as the accepted count reaches `minSolutionCount` after an acceptance; hence
it returns at most `max minSolutionCount 1` grids (at most
`minSolutionCount` when `minSolutionCount ≥ 1`). -/
theorem C6_collector_dedup_bound :
    ∀ (arrivals : List Game) (minSolutionCount : Int) (verbose : Bool),
      ((waitforCompletion arrivals minSolutionCount verbose).1.Pairwise
        (fun u w : Game => u.square ≠ w.square)) ∧
      ((waitforCompletion arrivals minSolutionCount verbose).1.Sublist arrivals) ∧
      (((waitforCompletion arrivals minSolutionCount verbose).1.length : Int) ≤
        max minSolutionCount 1) := by
  intro arr m verbose
  rw [waitforCompletion_fst]
  refine ⟨waitLoop_pairwise arr [] m List.Pairwise.nil, ?_, ?_⟩
  · obtain ⟨l, hl, hs⟩ := waitLoop_acc arr [] m
    rw [hl]
    simpa using hs
  · by_cases hm : 0 < m
    · exact le_trans (waitLoop_length_lt arr [] m (by simpa using hm)) (le_max_left _ _)
    · have hge := waitLoop_length_ge arr [] m (by simp; omega)
      have hcast : ((waitLoop arr [] m).length : Int) ≤ 1 := by
        simp only [List.length_nil] at hge
        omega
      exact le_trans hcast (le_max_right _ _)

/-- C7, counterexample: at the branching point reached from `oneClueStr`
(one clue, propagation fixes nothing), the parent's single provenance record
has `Initial = true`, but in every spawned child that record has been
flattened to `Initial = false` by `copy` — the child's provenance does not
match the parent's record-for-record. -/
theorem C7_counterexample :
    (Load oneClueStr).toOption.isSome = true ∧
    step oneClueGame = (oneClueGame, 0) ∧
    (spawnChildren oneClueGame).length = 8 ∧
    oneClueGame.Steps.headD dStep =
      { X := 0, Y := 0, Z := 5, Initial := true, IsGuess := false } ∧
    (oneClueChild.Steps.headD dStep).Initial = false ∧
    (oneClueChild.Steps.headD dStep).X = 0 ∧
    (oneClueChild.Steps.headD dStep).Y = 0 ∧
    (oneClueChild.Steps.headD dStep).Z = 5 := by
  refine ⟨by decide, by decide, by decide, by decide, by decide, by decide, by decide,
    by decide⟩

/-- C7 (amended): every child spawned at a branching point keeps the
parent's provenance records' `X`, `Y`, `Z` but has their `Initial` and
`IsGuess` fields reset to `false`, followed by exactly one guess record
(`Initial = false`, `IsGuess = true`) for a candidate value placed into a
previously empty cell; the child carries the parent's deadline and report
channel, the same `CellsToBeSolved`, and one more counted guess. -/
theorem C7_child_structure :
    ∀ (g c : Game), c ∈ spawnChildren g →
      ∃ x y : Fin 9, ∃ v,
        g.square x y = none ∧ v ∈ findCandidates g.square x y ∧
        c.Steps = g.Steps.map (fun s =>
          { X := s.X, Y := s.Y, Z := s.Z, Initial := false, IsGuess := false }) ++
          [{ X := x, Y := y, Z := v, Initial := false, IsGuess := true }] ∧
        c.square = g.square.Set x y v ∧
        c.deadline = g.deadline ∧
        c.solutionChannel = g.solutionChannel ∧
        c.GuessCount = g.GuessCount + 1 ∧
        c.CellsToBeSolved = g.CellsToBeSolved := by
  intro g c hc
  obtain ⟨x, y, v, he, hv, rfl⟩ := spawnChildren_spec g c hc
  exact ⟨x, y, v, he, hv, rfl, rfl, rfl, rfl, rfl, rfl⟩

/-- Witness for C7: the first child at the `oneClueStr` branching point. -/
theorem C7_child_structure_witness :
    oneClueChild ∈ spawnChildren oneClueGame ∧
    (∃ x y : Fin 9, ∃ v,
      oneClueGame.square x y = none ∧ v ∈ findCandidates oneClueGame.square x y ∧
      oneClueChild.Steps = oneClueGame.Steps.map (fun s =>
        { X := s.X, Y := s.Y, Z := s.Z, Initial := false, IsGuess := false }) ++
        [{ X := x, Y := y, Z := v, Initial := false, IsGuess := true }] ∧
      oneClueChild.square = oneClueGame.square.Set x y v ∧
      oneClueChild.deadline = oneClueGame.deadline ∧
      oneClueChild.solutionChannel = oneClueGame.solutionChannel ∧
      oneClueChild.GuessCount = oneClueGame.GuessCount + 1 ∧
      oneClueChild.CellsToBeSolved = oneClueGame.CellsToBeSolved) := by
  have hmem : oneClueChild ∈ spawnChildren oneClueGame :=
    headD_mem _ _ (by decide)
  exact ⟨hmem, C7_child_structure oneClueGame oneClueChild hmem⟩

/-- C8, counterexample: one sweep on `clean80Game` fixes a cell, after which
the grid has no unset cells but `CellsToBeSolved` still holds 1 — the
counter does not equal the number of unset cells after a placement. -/
theorem C8_counterexample :
    (step clean80Game).2 = 1 ∧
    (step clean80Game).1.CellsToBeSolved = 1 ∧
    countEmptyValues (step clean80Game).1.square = 0 := by
  refine ⟨by decide, by decide, by decide⟩

/-- C8 (amended): `CellsToBeSolved` is initialized at load to the number of
unset cells and never updated afterwards — placements (`set`, whole sweeps)
leave it unchanged — and the condition that actually signals a solution is
the freshly recomputed `countEmptyValues` reaching 0: every reported grid
has zero unset cells. -/
theorem C8_counter_initialized_never_updated :
    (∀ (g : Game) (x y : Fin 9) (z : Nat) (i b : Bool),
      (gameSet g x y z i b).CellsToBeSolved = g.CellsToBeSolved) ∧
    (∀ g : Game, (step g).1.CellsToBeSolved = g.CellsToBeSolved) ∧
    (∀ (s : String) (g : Game), Load s = .ok g →
      g.CellsToBeSolved = countEmptyValues g.square) ∧
    (∀ (fuel : Nat) (g sol : Game), sol ∈ solveGo fuel g →
      countEmptyValues sol.square = 0) := by
  refine ⟨fun g x y z i b => rfl, fun g => (step_preserves g).2.2.2.1,
    Load_cellsToBeSolved, ?_⟩
  intro fuel g sol h
  exact (solveGo_inv fuel g sol h).2

/-- Witness for C8: concrete instances of all four conjuncts. -/
theorem C8_counter_witness :
    (gameSet newGame 0 0 5 true false).CellsToBeSolved = newGame.CellsToBeSolved ∧
    (step clean80Game).1.CellsToBeSolved = clean80Game.CellsToBeSolved ∧
    clean80Game.CellsToBeSolved = countEmptyValues clean80Game.square ∧
    countEmptyValues ((solveGo 1 clean80Game).headD dfltGame).square = 0 := by
  refine ⟨C8_counter_initialized_never_updated.1 newGame 0 0 5 true false,
    C8_counter_initialized_never_updated.2.1 clean80Game,
    C8_counter_initialized_never_updated.2.2.1 clean80Str clean80Game (by decide),
    C8_counter_initialized_never_updated.2.2.2 1 clean80Game _ (headD_mem _ _ (by decide))⟩

/-- C9, counterexample: `zeroStr` contains the cell token `0`, which parses
to an integer outside 1..9, yet `Load` accepts the input (the range check is
`num < 0 || num > 9`) and stores the value 0. -/
theorem C9_counterexample :
    (Load zeroStr).toOption.isSome = true ∧
    zeroGame.square 0 0 = some 0 := by
  refine ⟨by decide, by decide⟩

/-- C9 (amended): for every input text containing, within the scanned region
(the first nine lines), a cell token that parses as an integer below 0 or
above 9, `Load` returns a non-nil error — concretely, "10" at row 1, column
1 yields the out-of-range error — and consequently every value stored in a
successfully loaded grid is at most 9; the token "0" is accepted and stored
(the range check is `num < 0 || num > 9`), contrary to the 1..9
restriction. -/
theorem C9_load_range :
    (∀ s : String,
      (∃ line ∈ (goSplit '\n' s.data).take 9, ∃ val ∈ goSplit ' ' line,
        ∃ num : Int, atoi val = some num ∧ (num < 0 ∨ 9 < num)) →
      ∃ e, Load s = .error e) ∧
    (∀ (s : String) (g : Game), Load s = .ok g →
      ∀ x y : Fin 9, ∀ v, g.square x y = some v → v ≤ 9) ∧
    Load tenStr = .error (.invalidValueNum 10 1 1) := by
  refine ⟨?_, ?_, by decide⟩
  · intro s hbad
    cases hload : Load s with
    | error e => exact ⟨e, rfl⟩
    | ok g =>
      exfalso
      obtain ⟨line, hline, val, hval, num, hnum, hout⟩ := hbad
      rcases Load_ok_scanned_tokens s g hload line hline val hval with
        hu | ⟨num', hnum', h0, h9⟩
      · rw [hu] at hnum
        have hnone : atoi ['_'] = none := rfl
        rw [hnone] at hnum
        exact Option.noConfusion hnum
      · have hnn : num' = num := Option.some.inj (hnum'.symm.trans hnum)
        omega
  · intro s g h x y v hv
    exact (valuesLe9_iff g.square).mp (Load_valuesLe9 s g h) x y v hv

/-- Witness for C9: the out-of-range token "10" inside the scanned region of
`tenStr` forces a load error, and the value 0 stored from `zeroStr` is
within the range the code actually enforces. -/
theorem C9_load_range_witness :
    (∃ line ∈ (goSplit '\n' tenStr.data).take 9, ∃ val ∈ goSplit ' ' line,
      ∃ num : Int, atoi val = some num ∧ (num < 0 ∨ 9 < num)) ∧
    (∃ e, Load tenStr = .error e) ∧
    Load zeroStr = .ok zeroGame ∧
    zeroGame.square 0 0 = some 0 ∧
    (0 : Nat) ≤ 9 := by
  have hprem : ∃ line ∈ (goSplit '\n' tenStr.data).take 9, ∃ val ∈ goSplit ' ' line,
      ∃ num : Int, atoi val = some num ∧ (num < 0 ∨ 9 < num) :=
    ⟨"10 2 3 4 5 6 7 8 9".data, by decide, "10".data, by decide, 10, by decide, by decide⟩
  have hload : Load zeroStr = .ok zeroGame := by decide
  have hv : zeroGame.square 0 0 = some 0 := by decide
  exact ⟨hprem, C9_load_range.1 tenStr hprem, hload, hv,
    C9_load_range.2.1 zeroStr zeroGame hload 0 0 0 hv⟩

/-- C10: the row loop of `Load` never looks past the first nine lines (any
suffix after nine scanned lines is ignored), stops at the first empty line
returning the rows read so far, and the "Not enough rows" error is produced
exactly when the scan ended with fewer than nine rows read — the row loop
itself never produces that error, and a scan that read nine rows makes
`Load` succeed. -/
theorem C10_row_scan :
    (∀ (ls rest : List (List Char)) (g : Game) (x n : Nat),
      9 ≤ x + ls.length → loadRows g x n (ls ++ rest) = loadRows g x n ls) ∧
    (∀ (g : Game) (x n : Nat) (rest : List (List Char)),
      loadRows g x n ([] :: rest) = .ok (g, n)) ∧
    (∀ (s : String) (g : Game) (n : Nat),
      loadRows newGame 0 0 (goSplit '\n' s.data) = .ok (g, n) →
      (Load s = .error (.notEnoughRows 9 n) ↔ n < 9)) ∧
    (∀ (ls : List (List Char)) (g : Game) (x n a b : Nat),
      loadRows g x n ls ≠ .error (.notEnoughRows a b)) ∧
    (∀ (s : String) (g : Game),
      loadRows newGame 0 0 (goSplit '\n' s.data) = .ok (g, 9) →
      Load s = .ok { g with CellsToBeSolved := countEmptyValues g.square }) := by
  refine ⟨?_, loadRows_empty_line, Load_notEnoughRows_iff, loadRows_ne, Load_ok_of_nine⟩
  intro ls rest g x n h
  exact loadRows_ignores_extra ls g x n rest h

/-- Witness for C10: `tenLinesStr` is `clean80Str` plus a garbage tenth
line and scans identically; `threeRowsStr` scans three rows and `Load`
reports exactly the row-count error; `clean80Str` scans nine rows and
`Load` succeeds. -/
theorem C10_row_scan_witness :
    9 ≤ 0 + (goSplit '\n' clean80Str.data).length ∧
    goSplit '\n' tenLinesStr.data = goSplit '\n' clean80Str.data ++ [junkLine] ∧
    loadRows newGame 0 0 (goSplit '\n' clean80Str.data ++ [junkLine]) =
      loadRows newGame 0 0 (goSplit '\n' clean80Str.data) ∧
    (Load threeRowsStr = .error (.notEnoughRows 9 threeScan.2) ↔ threeScan.2 < 9) ∧
    Load clean80Str =
      .ok { clean80Scan.1 with CellsToBeSolved := countEmptyValues clean80Scan.1.square } := by
  have h9 : 9 ≤ 0 + (goSplit '\n' clean80Str.data).length := by decide
  have hsplit : goSplit '\n' tenLinesStr.data =
      goSplit '\n' clean80Str.data ++ [junkLine] := by decide
  have hthree : loadRows newGame 0 0 (goSplit '\n' threeRowsStr.data) =
      .ok (threeScan.1, threeScan.2) := by decide
  have hnine : loadRows newGame 0 0 (goSplit '\n' clean80Str.data) =
      .ok (clean80Scan.1, 9) := by decide
  exact ⟨h9, hsplit, C10_row_scan.1 _ [junkLine] newGame 0 0 h9,
    C10_row_scan.2.2.1 threeRowsStr threeScan.1 threeScan.2 hthree,
    C10_row_scan.2.2.2.2 clean80Str clean80Scan.1 hnine⟩
